import Mathlib

/-!
Verification development for the FastPCBTools edge router
(`edge_router.py`).  The Python source is shallowly embedded: floats are
modelled as elements of a linear ordered field (`ℚ` for the executable
pipeline, `ℝ` for the trigonometric arc segmenter), Python lists as
`List`, and fallible functions (those that can raise `IndexError`)
return `Option`.
-/

set_option maxHeartbeats 1000000

namespace FastPCB

/-!  ## Points and quantization (edge_router.py, `Point`, lines 76-95)

`Point.__init__` snaps both coordinates onto the `TOLERANCE` grid when
`TOLERANCE > 0`.  Python's builtin `round` rounds halves to even, which
`pyRound` reproduces exactly.  -/

/-- Python's `round` to an integer: round-half-to-even. -/
def pyRound {α : Type*} [LinearOrderedField α] [FloorRing α] (v : α) : ℤ :=
  if Int.fract v < 1 / 2 then ⌊v⌋
  else if 1 / 2 < Int.fract v then ⌊v⌋ + 1
  else if ⌊v⌋ % 2 = 0 then ⌊v⌋ else ⌊v⌋ + 1

/-- `TOLERANCE = 1 / (2**6)` (edge_router.py line 14). -/
def TOLERANCE {α : Type*} [LinearOrderedField α] : α := 1 / 2 ^ 6

/-- The coordinate snapping done in `Point.__init__`:
`round(x / TOLERANCE) * TOLERANCE` when `TOLERANCE > 0`, else identity. -/
def quantize {α : Type*} [LinearOrderedField α] [FloorRing α] (tol v : α) : α :=
  if 0 < tol then (pyRound (v / tol) : α) * tol else v

/-- The `Point` class: a pair of coordinates.  Structural equality is
exactly `Point.__eq__` (`self.x == other.x and self.y == other.y`). -/
structure Point (α : Type*) where
  x : α
  y : α
deriving DecidableEq

instance {α : Type*} [Inhabited α] : Inhabited (Point α) := ⟨⟨default, default⟩⟩

/-- `Point.__init__`: both coordinates are quantized at construction. -/
def mkPoint {α : Type*} [LinearOrderedField α] [FloorRing α] (tol x y : α) : Point α :=
  ⟨quantize tol x, quantize tol y⟩

/-- `Point.__add__`: coordinatewise sum, re-quantized by the constructor. -/
def Point.add {α : Type*} [LinearOrderedField α] [FloorRing α]
    (tol : α) (p q : Point α) : Point α :=
  mkPoint tol (p.x + q.x) (p.y + q.y)

/-- `Point.__sub__`: coordinatewise difference, re-quantized by the constructor. -/
def Point.sub {α : Type*} [LinearOrderedField α] [FloorRing α]
    (tol : α) (p q : Point α) : Point α :=
  mkPoint tol (p.x - q.x) (p.y - q.y)

/-!  ## Edges (`Line`, `Arc` classes, lines 98-115)

The two edge classes are modelled as one inductive, generic over the
vertex type `V`; the pipeline instantiates `V` with `Point ℚ`
(resp. `Point ℝ` for the arc segmenter). -/

/-- `Line(start, end)` and `Arc(start, end, center, clockwise)`. -/
inductive Edge (V : Type*) where
  | line (s e : V)
  | arc (s e c : V) (cw : Bool)
deriving DecidableEq

instance {V : Type*} [Inhabited V] : Inhabited (Edge V) := ⟨.line default default⟩

/-- The `.start` attribute of a `Line` or `Arc`. -/
def Edge.start {V : Type*} : Edge V → V
  | .line s _ => s
  | .arc s _ _ _ => s

/-- The `.end` attribute of a `Line` or `Arc` (`end` is a Lean keyword). -/
def Edge.endp {V : Type*} : Edge V → V
  | .line _ e => e
  | .arc _ e _ _ => e

/-- The `.center` attribute; only `Arc` has one in the source, so the
`Line` case returns a junk default (the pipeline never reads it). -/
def Edge.center {V : Type*} [Inhabited V] : Edge V → V
  | .line _ _ => default
  | .arc _ _ c _ => c

/-- The `.clockwise` attribute; only `Arc` has one in the source. -/
def Edge.clockwise {V : Type*} : Edge V → Bool
  | .line _ _ => false
  | .arc _ _ _ cw => cw

/-- The reversal performed inline by `create_path` (lines 175-180 and
185-190): a `Line` swaps `start`/`end`; an `Arc` swaps `start`/`end`,
keeps `center` and negates `clockwise`. -/
def Edge.reverse {V : Type*} : Edge V → Edge V
  | .line s e => .line e s
  | .arc s e c cw => .arc e s c (!cw)

/-- The geometric identity of an edge, insensitive to traversal
direction: the unordered pair of the edge and its reversal. -/
def geom {V : Type*} : Edge V → Sym2 (Edge V) :=
  fun e => s(e, e.reverse)

/-- Python `lst[0]` (total model; the empty case is never reached where
it is used, see `create_path_empty_or_chain`). -/
def listHead {β : Type*} [Inhabited β] : List β → β
  | [] => default
  | a :: _ => a

/-- Python `lst[-1]` (total model; the empty case is never reached
where it is used). -/
def listLast {β : Type*} [Inhabited β] : List β → β
  | [] => default
  | [a] => a
  | _ :: b :: t => listLast (b :: t)

theorem listLast_concat {β : Type*} [Inhabited β] :
    ∀ (l : List β) (e : β), listLast (l ++ [e]) = e
  | [], _ => rfl
  | [_], _ => rfl
  | _ :: b :: t, e => listLast_concat (b :: t) e

theorem listLast_get {β : Type*} [Inhabited β] : ∀ (l : List β) (h : 0 < l.length),
    listLast l = l.get ⟨l.length - 1, by omega⟩
  | [_], _ => rfl
  | a :: b :: t, _ => by
    rw [show listLast (a :: b :: t) = listLast (b :: t) from rfl,
      listLast_get (b :: t) (by simp)]
    simp

/-!  ## The path linker (`create_path`, lines 156-199)

`create_path` seeds a chain with `edges[0]` and repeatedly scans the
pool `unlinked_edges`, attaching a pool edge whenever one of four
endpoint tests fires, in this priority order:

(a) append         when `linked[-1].end == edge.start`
(b) prepend        when `linked[0].start == edge.end`
(c) prepend-rev    when `linked[0].start == edge.start`
(d) append-rev     when `linked[-1].end == edge.end`

The Python `for edge in unlinked_edges` loop mutates the list it
iterates over (`unlinked_edges.remove(edge)` removes the element at the
iterator's current index, since `Line`/`Arc` compare by identity).
CPython's list iterator is index-based, so after a removal at index `k`
the element that slides into index `k` is *skipped* for the rest of the
pass; the outer `while` re-runs passes until one makes no progress.
`innerPass` models one `for` pass exactly, with `k` the iterator index
and `eraseIdx k` the `remove`. -/

/-- The body of the `for` loop (lines 163-192): test the current pool
edge `e` against the chain in the source's priority order and return
the grown chain on a match, `none` when `e` does not connect.
(a) append when `linked[-1].end == edge.start`; (b) prepend when
`linked[0].start == edge.end`; (c) prepend-reversed when
`linked[0].start == edge.start`; (d) append-reversed when
`linked[-1].end == edge.end`. -/
def attach? {V : Type*} [DecidableEq V] [Inhabited V]
    (chain : List (Edge V)) (e : Edge V) : Option (List (Edge V)) :=
  if (listLast chain).endp = e.start then some (chain ++ [e])
  else if (listHead chain).start = e.endp then some (e :: chain)
  else if (listHead chain).start = e.start then some (e.reverse :: chain)
  else if (listLast chain).endp = e.endp then some (chain ++ [e.reverse])
  else none

def innerPass {V : Type*} [DecidableEq V] [Inhabited V]
    (chain pool : List (Edge V)) (k : ℕ) : List (Edge V) × List (Edge V) :=
  if h : k < pool.length then
    match attach? chain (pool.get ⟨k, h⟩) with
    | some chain' => innerPass chain' (pool.eraseIdx k) (k + 1)
    | none => innerPass chain pool (k + 1)
  else
    (chain, pool)
termination_by pool.length + 1 - k
decreasing_by
  · simp [List.length_eraseIdx, h]; omega
  · omega

/-- Zipper formulation of one pass: `kept` holds the pool elements
already scanned (or skipped) and still unattached, `rest` the elements
the iterator has not reached.  On a match the attached edge is dropped
and the head of `rest` — the element that slid into the freed slot — is
moved unexamined to `kept`.  Structurally recursive, so it evaluates by
`decide`/`rfl`; `innerPass_eq_zipper` below proves it equal to
`innerPass`. -/
def innerPassAux {V : Type*} [DecidableEq V] [Inhabited V]
    (chain kept : List (Edge V)) : List (Edge V) → List (Edge V) × List (Edge V)
  | [] => (chain, kept)
  | e :: rest =>
    match attach? chain e with
    | some chain' =>
      match rest with
      | [] => (chain', kept)
      | f :: rest' => innerPassAux chain' (kept ++ [f]) rest'
    | none => innerPassAux chain (kept ++ [e]) rest

theorem eraseIdx_append_cons {β : Type*} :
    ∀ (L : List β) (e : β) (R : List β), (L ++ e :: R).eraseIdx L.length = L ++ R
  | [], _, _ => rfl
  | a :: L, e, R => by
    simpa using eraseIdx_append_cons L e R

theorem get_append_cons {β : Type*} :
    ∀ (L : List β) (e : β) (R : List β) (h : L.length < (L ++ e :: R).length),
      (L ++ e :: R).get ⟨L.length, h⟩ = e
  | [], _, _, _ => rfl
  | a :: L, e, R, _ => by
    simpa using get_append_cons L e R (by simp)

/-- One `for` pass: the iterator model `innerPass` agrees with the
structural zipper model `innerPassAux`. -/
theorem innerPass_eq_zipper {V : Type*} [DecidableEq V] [Inhabited V] :
    ∀ (rest kept chain : List (Edge V)),
      innerPass chain (kept ++ rest) kept.length = innerPassAux chain kept rest
  | [], kept, chain => by
    rw [innerPass, innerPassAux]
    simp
  | e :: rest', kept, chain => by
    rw [innerPass]
    have hk : kept.length < (kept ++ e :: rest').length := by simp
    rw [dif_pos hk, get_append_cons kept e rest' hk, eraseIdx_append_cons kept e rest']
    cases hA : attach? chain e with
    | none =>
      have h1' : kept ++ e :: rest' = (kept ++ [e]) ++ rest' := by simp
      have h2' : kept.length + 1 = (kept ++ [e]).length := by simp
      rw [innerPassAux.eq_def]
      simp only [hA]
      rw [h1', h2', innerPass_eq_zipper rest' (kept ++ [e]) chain]
    | some chain' =>
      rw [innerPassAux.eq_def]
      simp only [hA]
      match rest' with
      | [] =>
        rw [innerPass]
        simp
      | f :: rest2 =>
        have h1 : kept ++ f :: rest2 = (kept ++ [f]) ++ rest2 := by simp
        have h2 : kept.length + 1 = (kept ++ [f]).length := by simp
        rw [h1, h2, innerPass_eq_zipper rest2 (kept ++ [f]) chain']
termination_by rest => rest.length
decreasing_by
  · simp only [List.length_cons]
    omega
  · simp only [List.length_cons]
    omega

theorem innerPassAux_len {V : Type*} [DecidableEq V] [Inhabited V] :
    ∀ (rest kept chain : List (Edge V)),
      (innerPassAux chain kept rest).2.length ≤ kept.length + rest.length
  | [], kept, chain => by simp [innerPassAux]
  | e :: rest', kept, chain => by
    rw [innerPassAux.eq_def]
    cases hA : attach? chain e with
    | none =>
      simp only [hA]
      have := innerPassAux_len rest' (kept ++ [e]) chain
      simp only [List.length_append, List.length_cons, List.length_nil] at this ⊢
      omega
    | some chain' =>
      simp only [hA]
      match rest' with
      | [] => simp
      | f :: rest2 =>
        have := innerPassAux_len rest2 (kept ++ [f]) chain'
        simp only [List.length_append, List.length_cons, List.length_nil] at this ⊢
        omega
termination_by rest => rest.length
decreasing_by
  · simp only [List.length_cons]
    omega
  · simp only [List.length_cons]
    omega

/-- A pass starts with iterator index 0 and an untouched pool. -/
theorem innerPass_zero {V : Type*} [DecidableEq V] [Inhabited V]
    (chain pool : List (Edge V)) :
    innerPass chain pool 0 = innerPassAux chain [] pool := by
  simpa using innerPass_eq_zipper pool [] chain

theorem innerPass_len {V : Type*} [DecidableEq V] [Inhabited V]
    (chain pool : List (Edge V)) :
    (innerPass chain pool 0).2.length ≤ pool.length := by
  rw [innerPass_zero]
  simpa using innerPassAux_len pool [] chain

/-- The outer `while last_remaining != len(unlinked)` loop of
`create_path` (lines 159-193): run passes until one makes no progress.
`lastRemaining` enters as 0, and is set to the pool length just before
each pass. -/
def linkLoop {V : Type*} [DecidableEq V] [Inhabited V]
    (chain pool : List (Edge V)) (lastRemaining : ℕ) :
    List (Edge V) × List (Edge V) :=
  if lastRemaining = pool.length then (chain, pool)
  else
    match h : innerPass chain pool 0 with
    | (c', p') => linkLoop c' p' pool.length
termination_by pool.length + (if lastRemaining = pool.length then 0 else 1)
decreasing_by
  have hle := innerPass_len chain pool
  rw [h] at hle
  simp only at hle
  split <;> rename_i hx <;> simp_all <;> omega

/-- Fueled, structurally recursive evaluator for `linkLoop`;
`linkLoop_eq_fuel` shows any fuel above the pool size gives exactly
`linkLoop`.  Used to compute concrete runs by `rfl`/`decide`. -/
def linkLoopFuel {V : Type*} [DecidableEq V] [Inhabited V] :
    ℕ → List (Edge V) → List (Edge V) → ℕ → List (Edge V) × List (Edge V)
  | 0, chain, pool, _ => (chain, pool)
  | fuel + 1, chain, pool, lastRemaining =>
    if lastRemaining = pool.length then (chain, pool)
    else
      match innerPassAux chain [] pool with
      | (c', p') => linkLoopFuel fuel c' p' pool.length

theorem linkLoop_eq_fuel {V : Type*} [DecidableEq V] [Inhabited V] :
    ∀ (fuel : ℕ) (chain pool : List (Edge V)) (last : ℕ), pool.length < fuel →
      linkLoopFuel fuel chain pool last = linkLoop chain pool last
  | fuel + 1, chain, pool, last, hf => by
    rw [linkLoop.eq_def, linkLoopFuel]
    by_cases hl : last = pool.length
    · rw [if_pos hl, if_pos hl]
    rw [if_neg hl, if_neg hl]
    rw [innerPass_zero chain pool]
    cases hip : innerPassAux chain [] pool with
    | mk c' p' =>
      have hlen : p'.length ≤ pool.length := by
        have := innerPassAux_len pool [] chain
        rw [hip] at this
        simpa using this
      show linkLoopFuel fuel c' p' pool.length = linkLoop c' p' pool.length
      by_cases hp : p'.length < fuel
      · exact linkLoop_eq_fuel fuel c' p' pool.length hp
      · have hfe : p'.length = pool.length := by omega
        rw [linkLoop.eq_def, if_pos hfe.symm]
        cases fuel with
        | zero => rfl
        | succ f => rw [linkLoopFuel, if_pos hfe.symm]

/-- `create_path` (lines 156-199).  `edges[0]` raises `IndexError` on an
empty list, modelled by `none`.  (The "path is not closed" warning and
`input()` pause on line 195-197 do not change the returned value and are
not modelled.) -/
def create_path {V : Type*} [DecidableEq V] [Inhabited V]
    (edges : List (Edge V)) : Option (List (Edge V) × List (Edge V)) :=
  match edges with
  | [] => none
  | e :: rest => some (linkLoop [e] rest 0)

theorem linkLoopFuel_len {V : Type*} [DecidableEq V] [Inhabited V] :
    ∀ (fuel : ℕ) (chain pool : List (Edge V)) (last : ℕ),
      (linkLoopFuel fuel chain pool last).2.length ≤ pool.length
  | 0, chain, pool, _ => le_refl _
  | fuel + 1, chain, pool, last => by
    rw [linkLoopFuel]
    by_cases hl : last = pool.length
    · rw [if_pos hl]
    rw [if_neg hl]
    cases hip : innerPassAux chain [] pool with
    | mk c' p' =>
      have h1 : p'.length ≤ pool.length := by
        have := innerPassAux_len pool [] chain
        rw [hip] at this
        simpa using this
      exact le_trans (linkLoopFuel_len fuel c' p' pool.length) h1

theorem linkLoop_len {V : Type*} [DecidableEq V] [Inhabited V]
    (chain pool : List (Edge V)) (last : ℕ) :
    (linkLoop chain pool last).2.length ≤ pool.length := by
  rw [← linkLoop_eq_fuel (pool.length + 1) chain pool last (by omega)]
  exact linkLoopFuel_len _ chain pool last

theorem create_path_len {V : Type*} [DecidableEq V] [Inhabited V]
    (e : Edge V) (rest p u : List (Edge V))
    (h : create_path (e :: rest) = some (p, u)) : u.length ≤ rest.length := by
  rw [create_path] at h
  have h2 := linkLoop_len [e] rest 0
  cases hlk : linkLoop [e] rest 0 with
  | mk a b =>
    rw [hlk] at h h2
    simp only [Option.some.injEq, Prod.mk.injEq] at h
    rw [← h.2]
    simpa using h2

/-- The top level repeated-linking driver (lines 391-398): call
`create_path` on the residual pool until it is empty or a call makes no
progress. -/
def driverLoop {V : Type*} [DecidableEq V] [Inhabited V]
    (paths : List (List (Edge V))) (unlinked : List (Edge V)) (lastRemaining : ℕ) :
    List (List (Edge V)) × List (Edge V) :=
  if 0 < unlinked.length ∧ unlinked.length ≠ lastRemaining then
    match h : create_path unlinked with
    | some (p, u) => driverLoop (paths ++ [p]) u unlinked.length
    | none => (paths, unlinked)
  else (paths, unlinked)
termination_by unlinked.length
decreasing_by
  rename_i hcond
  cases unlinked with
  | nil => simp at hcond
  | cons e rest =>
    have := create_path_len e rest p u h
    simp only [List.length_cons]
    omega

/-- Lines 391-398 in full: the first `create_path` call plus the
`while` loop, returning the collected paths and the final residual
pool. -/
def driver {V : Type*} [DecidableEq V] [Inhabited V]
    (edges : List (Edge V)) : Option (List (List (Edge V)) × List (Edge V)) :=
  match create_path edges with
  | none => none
  | some (p, u) => some (driverLoop [p] u 0)

/-!  ## Single-cycle correctness of the path linker (claim C1)

An edge list "describes one closed shape in which every endpoint is
shared by exactly two edges and the edge graph is connected" exactly
when its edges can be put in bijection with the sides of a cycle on `n`
distinct vertices `u 0, u 1, …, u (n-1)` — side `s` joining `u s` and
`u (s+1)` — with each edge oriented arbitrarily along its side.  That
bijective description is `IsClosedCycle` below. -/

/-- Edge `e` is side `s` of the cycle `u`, in either orientation. -/
def occupies {V : Type*} (n : ℕ) (u : ZMod n → V) (e : Edge V) (s : ZMod n) : Prop :=
  (e.start = u s ∧ e.endp = u (s + 1)) ∨ (e.start = u (s + 1) ∧ e.endp = u s)

/-- All side indices of an `n`-cycle, listed once each. -/
def allSlots (n : ℕ) : List (ZMod n) := (List.range n).map (fun (i : ℕ) => (i : ZMod n))

/-- The edge list is, up to order and per-edge reversal, exactly the
side list of the cycle `u`. -/
def IsClosedCycle {V : Type*} (n : ℕ) (u : ZMod n → V) (edges : List (Edge V)) : Prop :=
  ∃ z : List (Edge V × ZMod n),
    edges = z.map Prod.fst ∧ (z.map Prod.snd).Perm (allSlots n) ∧
    ∀ pr ∈ z, occupies n u pr.1 pr.2

/-- The cycle sides not yet covered by a chain that starts at vertex
`u a` and has `len` edges: sides `a+len, a+len+1, …, a+n-1`. -/
def remainingSlots (n : ℕ) (a : ZMod n) (len : ℕ) : List (ZMod n) :=
  (List.range (n - len)).map (fun (t : ℕ) => a + (len : ZMod n) + (t : ZMod n))

/-- The chain is the directed path `u a → u (a+1) → …` along the cycle. -/
def chainAligned {V : Type*} (n : ℕ) (u : ZMod n → V) (a : ZMod n)
    (chain : List (Edge V)) : Prop :=
  ∀ (j : ℕ) (h : j < chain.length),
    (chain.get ⟨j, h⟩).start = u (a + (j : ZMod n)) ∧
    (chain.get ⟨j, h⟩).endp = u (a + (j : ZMod n) + 1)

/-- The multiset of geometric identities of a list of edges. -/
def geoms {V : Type*} (l : List (Edge V)) : Multiset (Sym2 (Edge V)) :=
  (l.map geom : List (Sym2 (Edge V)))

/-- Linker invariant: the chain is a directed contiguous arc of the
cycle, the pool covers the complementary sides bijectively (in some
order and orientation), and together they carry the input's edges. -/
def Inv {V : Type*} (n : ℕ) (u : ZMod n → V) (E : Multiset (Sym2 (Edge V)))
    (chain pool : List (Edge V)) : Prop :=
  ∃ (a : ZMod n) (z : List (Edge V × ZMod n)),
    1 ≤ chain.length ∧ chain.length + pool.length = n ∧
    chainAligned n u a chain ∧
    pool = z.map Prod.fst ∧
    (z.map Prod.snd).Perm (remainingSlots n a chain.length) ∧
    (∀ pr ∈ z, occupies n u pr.1 pr.2) ∧
    geoms chain + geoms pool = E

theorem Edge.reverse_reverse {V : Type*} (e : Edge V) : e.reverse.reverse = e := by
  cases e <;> simp [Edge.reverse]

theorem geom_reverse {V : Type*} (e : Edge V) : geom e.reverse = geom e := by
  rw [geom, geom, Edge.reverse_reverse]
  exact Sym2.eq_swap

theorem geoms_append {V : Type*} (l₁ l₂ : List (Edge V)) :
    geoms (l₁ ++ l₂) = geoms l₁ + geoms l₂ := by
  simp [geoms]

theorem geoms_cons {V : Type*} (e : Edge V) (l : List (Edge V)) :
    geoms (e :: l) = geom e ::ₘ geoms l := by
  simp [geoms]

theorem natCast_zmod_inj {n : ℕ} {i j : ℕ} (hi : i < n) (hj : j < n)
    (h : (i : ZMod n) = j) : i = j := by
  have h2 := congrArg ZMod.val h
  rwa [ZMod.val_cast_of_lt hi, ZMod.val_cast_of_lt hj] at h2

theorem mem_remainingSlots {n : ℕ} {a : ZMod n} {len : ℕ} {s : ZMod n} :
    s ∈ remainingSlots n a len ↔ ∃ t : ℕ, t < n - len ∧ s = a + (len : ZMod n) + (t : ZMod n) := by
  rw [remainingSlots]
  constructor
  · intro hs
    rcases List.mem_map.mp hs with ⟨t, ht, h⟩
    exact ⟨t, List.mem_range.mp ht, h.symm⟩
  · rintro ⟨t, ht, rfl⟩
    exact List.mem_map.mpr ⟨t, List.mem_range.mpr ht, rfl⟩

theorem mem_remainingSlots' {n : ℕ} {a : ZMod n} {len : ℕ} {s : ZMod n}
    (hs : s ∈ remainingSlots n a len) :
    ∃ t : ℕ, t < n - len ∧ s = a + ((len + t : ℕ) : ZMod n) := by
  rcases mem_remainingSlots.mp hs with ⟨t, ht, h⟩
  refine ⟨t, ht, ?_⟩
  rw [h]
  push_cast
  ring

theorem cancel_cast_cases {n : ℕ} (a : ZMod n) {i j : ℕ} (hi : i < n) (hj : j ≤ n)
    (h : a + (i : ZMod n) = a + (j : ZMod n)) : i = j ∨ (i = 0 ∧ j = n) := by
  have h2 : (i : ZMod n) = (j : ZMod n) := by
    have := congrArg (fun x => -a + x) h
    simpa using this
  rcases Nat.lt_or_ge j n with hj' | hj'
  · exact Or.inl (natCast_zmod_inj hi hj' h2)
  · have hjn : j = n := le_antisymm hj hj'
    have h3 : (i : ZMod n) = 0 := by rw [h2, hjn, ZMod.natCast_self]
    have h4 : n ∣ i := (ZMod.natCast_zmod_eq_zero_iff_dvd i n).mp h3
    have h5 : i = 0 := by
      rcases Nat.eq_zero_or_pos i with h0 | h0
      · exact h0
      · exact absurd (Nat.le_of_dvd h0 h4) (by omega)
    exact Or.inr ⟨h5, hjn⟩

theorem remainingSlots_head {n : ℕ} (a : ZMod n) {len : ℕ} (hlt : len < n) :
    remainingSlots n a len = (a + (len : ZMod n)) :: remainingSlots n a (len + 1) := by
  rw [remainingSlots, remainingSlots]
  have h1 : n - len = (n - (len + 1)) + 1 := by omega
  rw [h1, List.range_succ_eq_map, List.map_cons, List.map_map]
  congr 1
  · simp
  · apply List.map_congr_left
    intro t _
    simp only [Function.comp_apply]
    push_cast
    ring

theorem remainingSlots_concat {n : ℕ} (a : ZMod n) {len : ℕ} (hlt : len < n) :
    remainingSlots n a len =
      remainingSlots n (a + ((n - 1 : ℕ) : ZMod n)) (len + 1) ++ [a + ((n - 1 : ℕ) : ZMod n)] := by
  have key : ((n - 1 : ℕ) : ZMod n) + ((len + 1 : ℕ) : ZMod n) = (len : ZMod n) := by
    rw [← Nat.cast_add, show (n - 1) + (len + 1) = n + len by omega, Nat.cast_add,
      ZMod.natCast_self, zero_add]
  rw [remainingSlots, remainingSlots]
  have h1 : n - len = (n - (len + 1)) + 1 := by omega
  rw [h1, List.range_succ, List.map_append, List.map_singleton]
  congr 1
  · apply List.map_congr_left
    intro t _
    have h3 : (a + ((n - 1 : ℕ) : ZMod n)) + ((len + 1 : ℕ) : ZMod n) = a + (len : ZMod n) := by
      rw [add_assoc, key]
    rw [h3]
  · have h2 : len + (n - (len + 1)) = n - 1 := by omega
    have h3 : a + (len : ZMod n) + ((n - (len + 1) : ℕ) : ZMod n) = a + ((n - 1 : ℕ) : ZMod n) := by
      rw [add_assoc, ← Nat.cast_add, h2]
    rw [h3]

section LinkerInv

variable {V : Type*} [DecidableEq V] [Inhabited V]
variable {n : ℕ} {u : ZMod n → V}

theorem chain_head_start {a : ZMod n} {chain : List (Edge V)}
    (hc : chainAligned n u a chain) (h : 0 < chain.length) :
    (listHead chain).start = u a := by
  cases chain with
  | nil => simp at h
  | cons e t =>
    have h2 := (hc 0 (by simp)).1
    simpa [listHead] using h2

theorem chain_last_endp {a : ZMod n} {chain : List (Edge V)}
    (hc : chainAligned n u a chain) (h : 0 < chain.length) :
    (listLast chain).endp = u (a + (chain.length : ZMod n)) := by
  rw [listLast_get chain h]
  have h2 := (hc (chain.length - 1) (by omega)).2
  rw [h2]
  have h3 : ((chain.length - 1 : ℕ) : ZMod n) + 1 = (chain.length : ZMod n) := by
    rw [show (1 : ZMod n) = ((1 : ℕ) : ZMod n) by simp, ← Nat.cast_add,
      show (chain.length - 1) + 1 = chain.length by omega]
  rw [add_assoc, h3]

theorem slot_case_a (hu : ∀ i j : ZMod n, u i = u j → i = j) {a : ZMod n} {len : ℕ}
    (h1 : 1 ≤ len) (hlt : len < n) {e : Edge V} {s : ZMod n}
    (hocc : occupies n u e s) (hmem : s ∈ remainingSlots n a len)
    (heq : e.start = u (a + (len : ZMod n))) :
    s = a + (len : ZMod n) ∧ e.endp = u (a + (len : ZMod n) + 1) := by
  rcases mem_remainingSlots' hmem with ⟨t, ht, rfl⟩
  have hsucc : a + ((len + t : ℕ) : ZMod n) + 1 = a + ((len + t + 1 : ℕ) : ZMod n) := by
    push_cast
    ring
  rcases hocc with ⟨hs, he⟩ | ⟨hs, he⟩
  · have h2 : a + ((len + t : ℕ) : ZMod n) = a + ((len : ℕ) : ZMod n) :=
      hu _ _ (hs.symm.trans heq)
    rcases cancel_cast_cases a (by omega : len + t < n) (le_of_lt hlt) h2 with h4 | ⟨h4, h5⟩
    · have ht0 : t = 0 := by omega
      subst ht0
      constructor
      · simp
      · rw [he, hsucc]
        congr 1
        push_cast
        ring
    · omega
  · rw [hsucc] at hs
    have h2 : a + ((len : ℕ) : ZMod n) = a + ((len + t + 1 : ℕ) : ZMod n) :=
      hu _ _ (heq.symm.trans hs)
    rcases cancel_cast_cases a hlt (by omega : len + t + 1 ≤ n) h2 with h4 | ⟨h4, h5⟩
    · omega
    · omega

theorem slot_case_d (hu : ∀ i j : ZMod n, u i = u j → i = j) {a : ZMod n} {len : ℕ}
    (h1 : 1 ≤ len) (hlt : len < n) {e : Edge V} {s : ZMod n}
    (hocc : occupies n u e s) (hmem : s ∈ remainingSlots n a len)
    (heq : e.endp = u (a + (len : ZMod n))) :
    s = a + (len : ZMod n) ∧ e.start = u (a + (len : ZMod n) + 1) := by
  rcases mem_remainingSlots' hmem with ⟨t, ht, rfl⟩
  have hsucc : a + ((len + t : ℕ) : ZMod n) + 1 = a + ((len + t + 1 : ℕ) : ZMod n) := by
    push_cast
    ring
  rcases hocc with ⟨hs, he⟩ | ⟨hs, he⟩
  · rw [hsucc] at he
    have h2 : a + ((len : ℕ) : ZMod n) = a + ((len + t + 1 : ℕ) : ZMod n) :=
      hu _ _ (heq.symm.trans he)
    rcases cancel_cast_cases a hlt (by omega : len + t + 1 ≤ n) h2 with h4 | ⟨h4, h5⟩
    · omega
    · omega
  · have h2 : a + ((len + t : ℕ) : ZMod n) = a + ((len : ℕ) : ZMod n) :=
      hu _ _ (he.symm.trans heq)
    rcases cancel_cast_cases a (by omega : len + t < n) (le_of_lt hlt) h2 with h4 | ⟨h4, h5⟩
    · have ht0 : t = 0 := by omega
      subst ht0
      constructor
      · simp
      · rw [hs, hsucc]
        congr 1
        push_cast
        ring
    · omega

theorem slot_case_b (hu : ∀ i j : ZMod n, u i = u j → i = j) {a : ZMod n} {len : ℕ}
    (h1 : 1 ≤ len) (hlt : len < n) {e : Edge V} {s : ZMod n}
    (hocc : occupies n u e s) (hmem : s ∈ remainingSlots n a len)
    (heq : e.endp = u a) :
    s = a + ((n - 1 : ℕ) : ZMod n) ∧ e.start = u (a + ((n - 1 : ℕ) : ZMod n)) := by
  rcases mem_remainingSlots' hmem with ⟨t, ht, rfl⟩
  have hsucc : a + ((len + t : ℕ) : ZMod n) + 1 = a + ((len + t + 1 : ℕ) : ZMod n) := by
    push_cast
    ring
  have ha0 : u a = u (a + ((0 : ℕ) : ZMod n)) := by simp
  rcases hocc with ⟨hs, he⟩ | ⟨hs, he⟩
  · rw [hsucc] at he
    have h2 : a + ((0 : ℕ) : ZMod n) = a + ((len + t + 1 : ℕ) : ZMod n) :=
      hu _ _ (ha0.symm.trans (heq.symm.trans he))
    rcases cancel_cast_cases a (by omega : 0 < n) (by omega : len + t + 1 ≤ n) h2 with h4 | ⟨h4, h5⟩
    · omega
    · have h6 : len + t = n - 1 := by omega
      constructor
      · rw [h6]
      · rw [hs, h6]
  · have h2 : a + ((0 : ℕ) : ZMod n) = a + ((len + t : ℕ) : ZMod n) :=
      hu _ _ (ha0.symm.trans (heq.symm.trans he))
    rcases cancel_cast_cases a (by omega : 0 < n) (by omega : len + t ≤ n) h2 with h4 | ⟨h4, h5⟩
    · omega
    · omega

theorem slot_case_c (hu : ∀ i j : ZMod n, u i = u j → i = j) {a : ZMod n} {len : ℕ}
    (h1 : 1 ≤ len) (hlt : len < n) {e : Edge V} {s : ZMod n}
    (hocc : occupies n u e s) (hmem : s ∈ remainingSlots n a len)
    (heq : e.start = u a) :
    s = a + ((n - 1 : ℕ) : ZMod n) ∧ e.endp = u (a + ((n - 1 : ℕ) : ZMod n)) := by
  rcases mem_remainingSlots' hmem with ⟨t, ht, rfl⟩
  have hsucc : a + ((len + t : ℕ) : ZMod n) + 1 = a + ((len + t + 1 : ℕ) : ZMod n) := by
    push_cast
    ring
  have ha0 : u a = u (a + ((0 : ℕ) : ZMod n)) := by simp
  rcases hocc with ⟨hs, he⟩ | ⟨hs, he⟩
  · have h2 : a + ((0 : ℕ) : ZMod n) = a + ((len + t : ℕ) : ZMod n) :=
      hu _ _ (ha0.symm.trans (heq.symm.trans hs))
    rcases cancel_cast_cases a (by omega : 0 < n) (by omega : len + t ≤ n) h2 with h4 | ⟨h4, h5⟩
    · omega
    · omega
  · rw [hsucc] at hs
    have h2 : a + ((0 : ℕ) : ZMod n) = a + ((len + t + 1 : ℕ) : ZMod n) :=
      hu _ _ (ha0.symm.trans (heq.symm.trans hs))
    rcases cancel_cast_cases a (by omega : 0 < n) (by omega : len + t + 1 ≤ n) h2 with h4 | ⟨h4, h5⟩
    · omega
    · have h6 : len + t = n - 1 := by omega
      constructor
      · rw [h6]
      · rw [he, h6]

theorem Edge.start_reverse (e : Edge V) : e.reverse.start = e.endp := by
  cases e <;> rfl

theorem Edge.endp_reverse (e : Edge V) : e.reverse.endp = e.start := by
  cases e <;> rfl

theorem geoms_single_reverse (e : Edge V) : geoms [e.reverse] = geoms [e] := by
  simp [geoms, geom_reverse]

theorem cast_pred_add_succ {n : ℕ} (hn : 0 < n) (j : ℕ) :
    ((n - 1 : ℕ) : ZMod n) + ((j + 1 : ℕ) : ZMod n) = (j : ZMod n) := by
  rw [← Nat.cast_add, show (n - 1) + (j + 1) = n + j by omega, Nat.cast_add,
    ZMod.natCast_self, zero_add]

theorem add_pred_add_one {n : ℕ} (hn : 0 < n) (a : ZMod n) :
    a + ((n - 1 : ℕ) : ZMod n) + 1 = a := by
  rw [add_assoc, show (1 : ZMod n) = ((0 + 1 : ℕ) : ZMod n) by simp,
    cast_pred_add_succ hn 0]
  simp

theorem map_fst_split {γ δ : Type*} :
    ∀ (z : List (γ × δ)) (L : List γ) (e : γ) (R : List γ),
      z.map Prod.fst = L ++ e :: R →
      ∃ zL s zR, z = zL ++ (e, s) :: zR ∧ zL.map Prod.fst = L ∧ zR.map Prod.fst = R
  | [], L, e, R, h => by
    exact absurd h (by simp)
  | (g, d) :: z, L, e, R, h => by
    cases L with
    | nil =>
      simp only [List.map_cons, List.nil_append, List.cons.injEq] at h
      exact ⟨[], d, z, by simp [h.1], rfl, h.2⟩
    | cons lh L' =>
      simp only [List.map_cons, List.cons_append, List.cons.injEq] at h
      obtain ⟨zL, s, zR, h1, h2, h3⟩ := map_fst_split z L' e R h.2
      exact ⟨(g, d) :: zL, s, zR, by simp [h1], by simp [h.1, h2], h3⟩

theorem attach?_eq_some_cases {chain : List (Edge V)} {e : Edge V} {chain' : List (Edge V)}
    (h : attach? chain e = some chain') :
    ((listLast chain).endp = e.start ∧ chain' = chain ++ [e]) ∨
    ((listHead chain).start = e.endp ∧ chain' = e :: chain) ∨
    ((listHead chain).start = e.start ∧ chain' = e.reverse :: chain) ∨
    ((listLast chain).endp = e.endp ∧ chain' = chain ++ [e.reverse]) := by
  rw [attach?] at h
  split_ifs at h with h1 h2 h3 h4 <;> simp only [Option.some.injEq] at h <;> tauto

theorem attach?_eq_none_iff {chain : List (Edge V)} {e : Edge V} :
    attach? chain e = none ↔
      (listLast chain).endp ≠ e.start ∧ (listHead chain).start ≠ e.endp ∧
      (listHead chain).start ≠ e.start ∧ (listLast chain).endp ≠ e.endp := by
  rw [attach?]
  split_ifs with h1 h2 h3 h4 <;> simp_all

theorem inv_rebuild_append {E : Multiset (Sym2 (Edge V))} {a : ZMod n}
    {chain L R : List (Edge V)} {zLR : List (Edge V × ZMod n)} {eA : Edge V}
    (hlen1 : 1 ≤ chain.length)
    (hca : chainAligned n u a chain)
    (hfLR : L ++ R = zLR.map Prod.fst)
    (hoccLR : ∀ pr ∈ zLR, occupies n u pr.1 pr.2)
    (hperm : (zLR.map Prod.snd).Perm (remainingSlots n a (chain.length + 1)))
    (hlenn : chain.length + 1 + (L ++ R).length = n)
    (hstart : eA.start = u (a + (chain.length : ZMod n)))
    (hendp : eA.endp = u (a + (chain.length : ZMod n) + 1))
    (hgE : geoms (chain ++ [eA]) + geoms (L ++ R) = E) :
    Inv n u E (chain ++ [eA]) (L ++ R) := by
  refine ⟨a, zLR, by simp, by simpa using hlenn, ?_, hfLR, ?_, hoccLR, hgE⟩
  · intro j hj
    simp only [List.length_append, List.length_cons, List.length_nil] at hj
    by_cases hj' : j < chain.length
    · have hget := @List.get_append _ chain [eA] j hj'
      rw [hget]
      exact hca j hj'
    · have hj2 : j = chain.length := by omega
      subst hj2
      have hget := get_append_cons chain eA [] (by simp)
      rw [hget]
      exact ⟨hstart, hendp⟩
  · have h2 : (chain ++ [eA]).length = chain.length + 1 := by simp
    rw [h2]
    exact hperm

theorem inv_rebuild_prepend {E : Multiset (Sym2 (Edge V))} (hn0 : 0 < n) {a : ZMod n}
    {chain L R : List (Edge V)} {zLR : List (Edge V × ZMod n)} {eA : Edge V}
    (hca : chainAligned n u a chain)
    (hfLR : L ++ R = zLR.map Prod.fst)
    (hoccLR : ∀ pr ∈ zLR, occupies n u pr.1 pr.2)
    (hperm : (zLR.map Prod.snd).Perm
      (remainingSlots n (a + ((n - 1 : ℕ) : ZMod n)) (chain.length + 1)))
    (hlenn : chain.length + 1 + (L ++ R).length = n)
    (hstart : eA.start = u (a + ((n - 1 : ℕ) : ZMod n)))
    (hendp : eA.endp = u a)
    (hgE : geoms (eA :: chain) + geoms (L ++ R) = E) :
    Inv n u E (eA :: chain) (L ++ R) := by
  refine ⟨a + ((n - 1 : ℕ) : ZMod n), zLR, by simp, by simpa using hlenn, ?_, hfLR, ?_,
    hoccLR, hgE⟩
  · intro j hj
    cases j with
    | zero =>
      constructor
      · simpa using hstart
      · have h5 : a + ((n - 1 : ℕ) : ZMod n) + ((0 : ℕ) : ZMod n) + 1 = a := by
          rw [Nat.cast_zero, add_zero, add_pred_add_one hn0]
        show eA.endp = u (a + ((n - 1 : ℕ) : ZMod n) + ((0 : ℕ) : ZMod n) + 1)
        rw [h5]
        exact hendp
    | succ j' =>
      have hj' : j' < chain.length := by
        simp only [List.length_cons] at hj
        omega
      have hgc := hca j' hj'
      have hid : a + ((n - 1 : ℕ) : ZMod n) + ((j' + 1 : ℕ) : ZMod n) = a + (j' : ZMod n) := by
        rw [add_assoc, cast_pred_add_succ hn0]
      have hget : (eA :: chain).get ⟨j' + 1, hj⟩ = chain.get ⟨j', hj'⟩ := rfl
      constructor
      · rw [hget]
        show (chain.get ⟨j', hj'⟩).start = u (a + ((n - 1 : ℕ) : ZMod n) + ((j' + 1 : ℕ) : ZMod n))
        rw [hid]
        exact hgc.1
      · rw [hget]
        show (chain.get ⟨j', hj'⟩).endp =
          u (a + ((n - 1 : ℕ) : ZMod n) + ((j' + 1 : ℕ) : ZMod n) + 1)
        rw [hid]
        exact hgc.2
  · have h2 : (eA :: chain).length = chain.length + 1 := rfl
    rw [h2]
    exact hperm

/-- One successful attachment preserves the linker invariant. -/
theorem inv_attach {E : Multiset (Sym2 (Edge V))}
    (hu : ∀ i j : ZMod n, u i = u j → i = j)
    {chain L R : List (Edge V)} {e : Edge V} {chain' : List (Edge V)}
    (hInv : Inv n u E chain (L ++ e :: R)) (hA : attach? chain e = some chain') :
    Inv n u E chain' (L ++ R) := by
  obtain ⟨a, z, hlen1, hlenn, hca, hzf, hzs, hocc, hg⟩ := hInv
  have hlt : chain.length < n := by
    simp only [List.length_append, List.length_cons] at hlenn
    omega
  have hn0 : 0 < n := by omega
  obtain ⟨zL, s, zR, hzeq, hfL, hfR⟩ := map_fst_split z L e R hzf.symm
  have hmem_s : s ∈ remainingSlots n a chain.length := by
    have h1 : s ∈ z.map Prod.snd := by
      rw [hzeq]
      simp
    exact hzs.mem_iff.mp h1
  have hocc_es : occupies n u e s := hocc (e, s) (by rw [hzeq]; simp)
  have hsnd : z.map Prod.snd = zL.map Prod.snd ++ s :: zR.map Prod.snd := by
    rw [hzeq]
    simp
  have hfLR : L ++ R = (zL ++ zR).map Prod.fst := by
    simp [hfL, hfR]
  have hoccLR : ∀ pr ∈ zL ++ zR, occupies n u pr.1 pr.2 := by
    intro pr hpr
    apply hocc
    rw [hzeq]
    rcases List.mem_append.mp hpr with h | h
    · exact List.mem_append.mpr (Or.inl h)
    · exact List.mem_append.mpr (Or.inr (List.mem_cons_of_mem _ h))
  have hperm_mid : (s :: (zL.map Prod.snd ++ zR.map Prod.snd)).Perm
      (remainingSlots n a chain.length) := by
    have h1 : (zL.map Prod.snd ++ s :: zR.map Prod.snd).Perm
        (remainingSlots n a chain.length) := by
      rw [← hsnd]
      exact hzs
    exact List.perm_middle.symm.trans h1
  have hlenn' : chain.length + 1 + (L ++ R).length = n := by
    simp only [List.length_append, List.length_cons] at hlenn ⊢
    omega
  rcases attach?_eq_some_cases hA with ⟨hc, rfl⟩ | ⟨hc, rfl⟩ | ⟨hc, rfl⟩ | ⟨hc, rfl⟩
  · have heq : e.start = u (a + (chain.length : ZMod n)) := by
      rw [← hc, chain_last_endp hca (by omega)]
    obtain ⟨hs_eq, hendp⟩ := slot_case_a hu hlen1 hlt hocc_es hmem_s heq
    refine inv_rebuild_append hlen1 hca hfLR hoccLR ?_ hlenn' heq hendp ?_
    · have h3 := hperm_mid
      rw [remainingSlots_head a hlt, hs_eq] at h3
      rw [List.map_append]
      exact h3.cons_inv
    · rw [← hg, show L ++ e :: R = L ++ ([e] ++ R) from rfl, geoms_append, geoms_append,
        geoms_append, geoms_append]
      abel
  · have heq : e.endp = u a := by
      rw [← hc, chain_head_start hca (by omega)]
    obtain ⟨hs_eq, hstart⟩ := slot_case_b hu hlen1 hlt hocc_es hmem_s heq
    refine inv_rebuild_prepend hn0 hca hfLR hoccLR ?_ hlenn' hstart heq ?_
    · have h3 := hperm_mid
      rw [remainingSlots_concat a hlt] at h3
      have h4 := h3.trans (List.perm_append_singleton _ _)
      rw [hs_eq] at h4
      rw [List.map_append]
      exact h4.cons_inv
    · rw [show (e :: chain) = [e] ++ chain from rfl, ← hg,
        show L ++ e :: R = L ++ ([e] ++ R) from rfl, geoms_append, geoms_append,
        geoms_append, geoms_append]
      abel
  · have heq : e.start = u a := by
      rw [← hc, chain_head_start hca (by omega)]
    obtain ⟨hs_eq, hendp2⟩ := slot_case_c hu hlen1 hlt hocc_es hmem_s heq
    refine inv_rebuild_prepend hn0 hca hfLR hoccLR ?_ hlenn' ?_ ?_ ?_
    · have h3 := hperm_mid
      rw [remainingSlots_concat a hlt] at h3
      have h4 := h3.trans (List.perm_append_singleton _ _)
      rw [hs_eq] at h4
      rw [List.map_append]
      exact h4.cons_inv
    · rw [Edge.start_reverse]
      exact hendp2
    · rw [Edge.endp_reverse]
      exact heq
    · rw [show (e.reverse :: chain) = [e.reverse] ++ chain from rfl, ← hg,
        show L ++ e :: R = L ++ ([e] ++ R) from rfl, geoms_append, geoms_append,
        geoms_append, geoms_append, geoms_single_reverse]
      abel
  · have heq : e.endp = u (a + (chain.length : ZMod n)) := by
      rw [← hc, chain_last_endp hca (by omega)]
    obtain ⟨hs_eq, hstart2⟩ := slot_case_d hu hlen1 hlt hocc_es hmem_s heq
    refine inv_rebuild_append hlen1 hca hfLR hoccLR ?_ hlenn' ?_ ?_ ?_
    · have h3 := hperm_mid
      rw [remainingSlots_head a hlt, hs_eq] at h3
      rw [List.map_append]
      exact h3.cons_inv
    · rw [Edge.start_reverse]
      exact heq
    · rw [Edge.endp_reverse]
      exact hstart2
    · rw [← hg, show L ++ e :: R = L ++ ([e] ++ R) from rfl, geoms_append, geoms_append,
        geoms_append, geoms_append, geoms_single_reverse]
      abel

/-- One pass preserves the linker invariant. -/
theorem innerPassAux_inv (hu : ∀ i j : ZMod n, u i = u j → i = j)
    {E : Multiset (Sym2 (Edge V))} :
    ∀ (rest kept chain : List (Edge V)), Inv n u E chain (kept ++ rest) →
      Inv n u E (innerPassAux chain kept rest).1 (innerPassAux chain kept rest).2
  | [], kept, chain, hInv => by simpa [innerPassAux] using hInv
  | e :: rest', kept, chain, hInv => by
    rw [innerPassAux.eq_def]
    cases hA : attach? chain e with
    | none =>
      simp only [hA]
      exact innerPassAux_inv hu rest' (kept ++ [e]) chain
        (by rw [List.append_assoc]; exact hInv)
    | some chain' =>
      simp only [hA]
      have hInv' : Inv n u E chain' (kept ++ rest') := inv_attach hu hInv hA
      match rest' with
      | [] => simpa using hInv'
      | f :: rest2 =>
        exact innerPassAux_inv hu rest2 (kept ++ [f]) chain'
          (by rw [List.append_assoc]; exact hInv')
termination_by rest => rest.length
decreasing_by
  · simp only [List.length_cons]
    omega
  · simp only [List.length_cons]
    omega

/-- A pass that removes nothing leaves the state unchanged and every
pool edge failed all four tests against the (unchanged) chain. -/
theorem innerPassAux_stall :
    ∀ (rest kept chain : List (Edge V)),
      (innerPassAux chain kept rest).2.length = kept.length + rest.length →
      innerPassAux chain kept rest = (chain, kept ++ rest) ∧
        ∀ e ∈ rest, attach? chain e = none
  | [], kept, chain, _ => by simp [innerPassAux]
  | e :: rest', kept, chain, hstall => by
    rw [innerPassAux.eq_def] at hstall ⊢
    cases hA : attach? chain e with
    | none =>
      simp only [hA] at hstall ⊢
      obtain ⟨h1, h2⟩ := innerPassAux_stall rest' (kept ++ [e]) chain
        (by simp only [List.length_append, List.length_cons, List.length_nil] at hstall ⊢; omega)
      constructor
      · rw [h1]
        simp
      · intro f hf
        rcases List.mem_cons.mp hf with rfl | hf'
        · exact hA
        · exact h2 f hf'
    | some chain' =>
      exfalso
      match rest' with
      | [] =>
        simp only [hA] at hstall
        simp only [List.length_cons] at hstall
        omega
      | f :: rest2 =>
        simp only [hA] at hstall
        have hle := innerPassAux_len rest2 (kept ++ [f]) chain'
        simp only [List.length_append, List.length_cons, List.length_nil] at hstall hle
        omega
termination_by rest => rest.length
decreasing_by
  simp only [List.length_cons]
  omega

/-- Under the invariant, a nonempty pool always contains an edge
that one of the four tests accepts. -/
theorem inv_progress (hu : ∀ i j : ZMod n, u i = u j → i = j)
    {E : Multiset (Sym2 (Edge V))} {chain pool : List (Edge V)}
    (hInv : Inv n u E chain pool) (hpool : pool ≠ []) :
    ∃ e ∈ pool, attach? chain e ≠ none := by
  obtain ⟨a, z, hlen1, hlenn, hca, hzf, hzs, hocc, hg⟩ := hInv
  have hppos : 0 < pool.length := List.length_pos.mpr hpool
  have hlt : chain.length < n := by omega
  have hmem : (a + (chain.length : ZMod n)) ∈ remainingSlots n a chain.length := by
    rw [mem_remainingSlots]
    exact ⟨0, by omega, by simp⟩
  have hmem2 : (a + (chain.length : ZMod n)) ∈ z.map Prod.snd := hzs.mem_iff.mpr hmem
  rcases List.mem_map.mp hmem2 with ⟨pr, hpr, hpr2⟩
  refine ⟨pr.1, ?_, ?_⟩
  · rw [hzf]
    exact List.mem_map.mpr ⟨pr, hpr, rfl⟩
  · intro hnone
    rw [attach?_eq_none_iff] at hnone
    have hocc' := hocc pr hpr
    have hend := chain_last_endp hca (by omega)
    rcases hocc' with ⟨hs, he⟩ | ⟨hs, he⟩
    · have h2 : (listLast chain).endp = pr.1.start := by
        rw [hend, ← hpr2, hs]
      exact hnone.1 h2
    · have h2 : (listLast chain).endp = pr.1.endp := by
        rw [hend, ← hpr2, he]
      exact hnone.2.2.2 h2

theorem linkLoopFuel_nil (fuel : ℕ) (chain : List (Edge V)) :
    linkLoopFuel fuel chain [] 0 = (chain, []) := by
  cases fuel <;> simp [linkLoopFuel]

/-- The outer loop drains the pool completely and keeps the invariant. -/
theorem linkLoopFuel_drain (hu : ∀ i j : ZMod n, u i = u j → i = j)
    {E : Multiset (Sym2 (Edge V))} :
    ∀ (fuel : ℕ) (chain pool : List (Edge V)) (last : ℕ),
      pool.length < fuel → Inv n u E chain pool → (last = pool.length → pool = []) →
      ∃ chain', linkLoopFuel fuel chain pool last = (chain', []) ∧ Inv n u E chain' []
  | 0, _, pool, _, hf, _, _ => absurd hf (by omega)
  | fuel + 1, chain, pool, last, hf, hInv, hside => by
    rw [linkLoopFuel]
    by_cases hl : last = pool.length
    · rw [if_pos hl]
      have hpool := hside hl
      subst hpool
      exact ⟨chain, rfl, hInv⟩
    · rw [if_neg hl]
      cases hip : innerPassAux chain [] pool with
      | mk c' p' =>
        show ∃ chain', linkLoopFuel fuel c' p' pool.length = (chain', []) ∧ Inv n u E chain' []
        have hInv' : Inv n u E c' p' := by
          have h2 := innerPassAux_inv hu pool [] chain (by simpa using hInv)
          rw [hip] at h2
          exact h2
        have hlen : p'.length ≤ pool.length := by
          have h2 := innerPassAux_len pool [] chain
          rw [hip] at h2
          simpa using h2
        by_cases hstall : p'.length = pool.length
        · have hs2 : (innerPassAux chain [] pool).2.length = ([] : List (Edge V)).length + pool.length := by
            rw [hip]
            simpa using hstall
          obtain ⟨hres, hall⟩ := innerPassAux_stall pool [] chain hs2
          have hpool_nil : pool = [] := by
            by_contra hne
            obtain ⟨e, he, hA⟩ := inv_progress hu hInv hne
            exact hA (hall e he)
          subst hpool_nil
          rw [hip] at hres
          have hc' : c' = chain ∧ p' = ([] : List (Edge V)) := by
            constructor <;> [exact congrArg Prod.fst hres; simpa using congrArg Prod.snd hres]
          obtain ⟨hc1, hc2⟩ := hc'
          subst hc2
          refine ⟨c', ?_, ?_⟩
          · simpa using linkLoopFuel_nil fuel c'
          · subst hc1
            simpa using hInv
        · have hlt2 : p'.length < pool.length := by omega
          exact linkLoopFuel_drain hu fuel c' p' pool.length (by omega) hInv'
            (fun h => absurd h.symm hstall)

theorem allSlots_length (n : ℕ) : (allSlots n).length = n := by
  simp [allSlots]

theorem allSlots_nodup (n : ℕ) : (allSlots n).Nodup := by
  apply List.Nodup.map_on
  · intro x hx y hy hxy
    exact natCast_zmod_inj (List.mem_range.mp hx) (List.mem_range.mp hy) hxy
  · exact List.nodup_range n

theorem mem_allSlots {n : ℕ} (hn : 0 < n) (x : ZMod n) : x ∈ allSlots n := by
  have : NeZero n := ⟨by omega⟩
  rw [allSlots]
  apply List.mem_map.mpr
  refine ⟨x.val, List.mem_range.mpr (ZMod.val_lt x), ?_⟩
  exact ZMod.natCast_zmod_val x

theorem allSlots_cons {n : ℕ} (hn : 0 < n) :
    allSlots n = (0 : ZMod n) :: remainingSlots n 0 1 := by
  rw [allSlots, remainingSlots, show n = (n - 1) + 1 by omega, List.range_succ_eq_map,
    List.map_cons, List.map_map]
  rw [show ((n - 1) + 1) - 1 = n - 1 by omega]
  refine List.cons_eq_cons.mpr ⟨by simp, ?_⟩
  apply List.map_congr_left
  intro t _
  simp only [Function.comp_apply]
  push_cast
  ring

theorem perm_allSlots_map {n : ℕ} (hn : 0 < n) (σ τ : ZMod n → ZMod n)
    (hστ : ∀ x, σ (τ x) = x) (hτσ : ∀ x, τ (σ x) = x)
    {X : List (ZMod n)} (hX : X.Perm (allSlots n)) : (X.map σ).Perm (allSlots n) := by
  have hnd1 : (allSlots n).Nodup := allSlots_nodup n
  have hndX : X.Nodup := hX.nodup_iff.mpr hnd1
  have hinj : Function.Injective σ := fun a b h => by rw [← hτσ a, h, hτσ]
  have hnd2 : (X.map σ).Nodup := hndX.map hinj
  apply (List.perm_ext_iff_of_nodup hnd2 hnd1).mpr
  intro x
  constructor
  · intro _
    exact mem_allSlots hn x
  · intro _
    exact List.mem_map.mpr ⟨τ x, hX.mem_iff.mpr (mem_allSlots hn (τ x)), hστ x⟩

/-- Any single-closed-cycle edge list, seeded with its first edge, can
be re-parametrized so that the seed is the cycle's side `0` traversed
forwards; this gives the initial linker invariant. -/
theorem inv_init (hn : 2 ≤ n) (hu : ∀ i j : ZMod n, u i = u j → i = j)
    {e₀ : Edge V} {rest : List (Edge V)}
    (hcyc : IsClosedCycle n u (e₀ :: rest)) :
    ∃ u' : ZMod n → V, (∀ i j : ZMod n, u' i = u' j → i = j) ∧
      Inv n u' (geoms (e₀ :: rest)) [e₀] rest := by
  have hn0 : 0 < n := by omega
  obtain ⟨z, hzf, hzs, hocc⟩ := hcyc
  cases z with
  | nil => exact absurd hzf (by simp)
  | cons pr ztail =>
    obtain ⟨g, s₀⟩ := pr
    simp only [List.map_cons, List.cons.injEq] at hzf
    obtain ⟨hg, htail⟩ := hzf
    subst hg
    have hlen : 1 + rest.length = n := by
      have h1 := hzs.length_eq
      simp only [List.map_cons, List.length_cons, allSlots_length, List.length_map] at h1
      rw [htail]
      simp only [List.length_map]
      omega
    have hocc0 : occupies n u e₀ s₀ := hocc (e₀, s₀) (by simp)
    have hzs' : (s₀ :: ztail.map Prod.snd).Perm (allSlots n) := by
      simpa using hzs
    rcases hocc0 with ⟨hst, hen⟩ | ⟨hst, hen⟩
    · -- seed is oriented forwards along the cycle
      refine ⟨fun i => u (s₀ + i), ?_, 0, ztail.map (fun pr => (pr.1, pr.2 - s₀)),
        by simp, by simpa using hlen, ?_, ?_, ?_, ?_, ?_⟩
      · intro i j hij
        have h2 := hu _ _ hij
        exact add_left_cancel h2
      · intro j hj
        have hj0 : j = 0 := by simpa using Nat.lt_one_iff.mp (by simpa using hj)
        subst hj0
        constructor
        · show e₀.start = u (s₀ + ((0 : ZMod n) + ((0 : ℕ) : ZMod n)))
          rw [show ((0 : ZMod n) + ((0 : ℕ) : ZMod n)) = 0 by simp, add_zero]
          exact hst
        · show e₀.endp = u (s₀ + ((0 : ZMod n) + ((0 : ℕ) : ZMod n) + 1))
          rw [show ((0 : ZMod n) + ((0 : ℕ) : ZMod n) + 1) = 1 by simp]
          exact hen
      · rw [htail, List.map_map]
        rfl
      · -- slot permutation
        show ((ztail.map (fun pr => (pr.1, pr.2 - s₀))).map Prod.snd).Perm
          (remainingSlots n 0 ([e₀].length))
        have h1 : (ztail.map (fun pr => (pr.1, pr.2 - s₀))).map Prod.snd =
            (ztail.map Prod.snd).map (fun s => s - s₀) := by
          simp [List.map_map]
        rw [h1]
        have h2 := perm_allSlots_map hn0 (fun s => s - s₀) (fun s => s + s₀)
          (fun x => by ring) (fun x => by ring) hzs'
        simp only [List.map_cons, sub_self] at h2
        rw [allSlots_cons hn0] at h2
        simpa using h2.cons_inv
      · intro pr hpr
        rcases List.mem_map.mp hpr with ⟨pr0, hpr0, rfl⟩
        have h3 := hocc pr0 (List.mem_cons_of_mem _ hpr0)
        rcases h3 with ⟨h4, h5⟩ | ⟨h4, h5⟩
        · exact Or.inl ⟨by rw [h4]; exact congrArg u (by ring),
            by rw [h5]; exact congrArg u (by ring)⟩
        · exact Or.inr ⟨by rw [h4]; exact congrArg u (by ring),
            by rw [h5]; exact congrArg u (by ring)⟩
      · rw [show (e₀ :: rest) = [e₀] ++ rest from rfl, geoms_append]
    · -- seed is oriented backwards along the cycle
      refine ⟨fun i => u (s₀ + 1 - i), ?_, 0, ztail.map (fun pr => (pr.1, s₀ - pr.2)),
        by simp, by simpa using hlen, ?_, ?_, ?_, ?_, ?_⟩
      · intro i j hij
        have h2 := hu _ _ hij
        have h3 : s₀ + 1 - i = s₀ + 1 - j := h2
        have h4 := congrArg (fun x => (s₀ + 1) - x) h3
        simpa using h4
      · intro j hj
        have hj0 : j = 0 := by simpa using Nat.lt_one_iff.mp (by simpa using hj)
        subst hj0
        constructor
        · show e₀.start = u (s₀ + 1 - ((0 : ZMod n) + ((0 : ℕ) : ZMod n)))
          rw [show ((0 : ZMod n) + ((0 : ℕ) : ZMod n)) = 0 by simp, sub_zero]
          exact hst
        · show e₀.endp = u (s₀ + 1 - ((0 : ZMod n) + ((0 : ℕ) : ZMod n) + 1))
          rw [show ((0 : ZMod n) + ((0 : ℕ) : ZMod n) + 1) = 1 by simp]
          rw [show s₀ + 1 - 1 = s₀ by ring]
          exact hen
      · rw [htail, List.map_map]
        rfl
      · show ((ztail.map (fun pr => (pr.1, s₀ - pr.2))).map Prod.snd).Perm
          (remainingSlots n 0 ([e₀].length))
        have h1 : (ztail.map (fun pr => (pr.1, s₀ - pr.2))).map Prod.snd =
            (ztail.map Prod.snd).map (fun s => s₀ - s) := by
          simp [List.map_map]
        rw [h1]
        have h2 := perm_allSlots_map hn0 (fun s => s₀ - s) (fun s => s₀ - s)
          (fun x => by ring) (fun x => by ring) hzs'
        simp only [List.map_cons, sub_self] at h2
        rw [allSlots_cons hn0] at h2
        simpa using h2.cons_inv
      · intro pr hpr
        rcases List.mem_map.mp hpr with ⟨pr0, hpr0, rfl⟩
        have h3 := hocc pr0 (List.mem_cons_of_mem _ hpr0)
        rcases h3 with ⟨h4, h5⟩ | ⟨h4, h5⟩
        · exact Or.inr ⟨by rw [h4]; exact congrArg u (by ring),
            by rw [h5]; exact congrArg u (by ring)⟩
        · exact Or.inl ⟨by rw [h4]; exact congrArg u (by ring),
            by rw [h5]; exact congrArg u (by ring)⟩
      · rw [show (e₀ :: rest) = [e₀] ++ rest from rfl, geoms_append]

/-- Full single-cycle run of the linker: the pool drains, the chain is
one closed loop of all `n` edges, and the loop's edges are the input
edges up to order and reversal. -/
theorem create_path_cycle_run (hn : 2 ≤ n) (hu : ∀ i j : ZMod n, u i = u j → i = j)
    (edges : List (Edge V)) (hcyc : IsClosedCycle n u edges) :
    ∃ path, create_path edges = some (path, []) ∧ path.length = n ∧
      (listHead path).start = (listLast path).endp ∧
      (path.map geom).Perm (edges.map geom) := by
  have hlenE : edges.length = n := by
    obtain ⟨z, hzf, hzs, hocc⟩ := hcyc
    rw [hzf]
    have h1 := hzs.length_eq
    simpa [allSlots_length] using h1
  cases edges with
  | nil =>
    simp only [List.length_nil] at hlenE
    omega
  | cons e₀ rest =>
    obtain ⟨u', hu', hInv⟩ := inv_init hn hu hcyc
    have hfuel := linkLoop_eq_fuel (rest.length + 1) [e₀] rest 0 (by omega)
    obtain ⟨chain', hrun, hInvF⟩ := linkLoopFuel_drain hu' (rest.length + 1) [e₀] rest 0
      (by omega) hInv (fun h => List.length_eq_zero.mp h.symm)
    have hLL : linkLoop [e₀] rest 0 = (chain', []) := by
      rw [← hfuel]
      exact hrun
    obtain ⟨a, z', hl1, hln, hca, _, _, _, hg⟩ := hInvF
    have hplen : chain'.length = n := by simpa using hln
    refine ⟨chain', ?_, hplen, ?_, ?_⟩
    · rw [create_path, hLL]
    · have hh := chain_head_start hca (by omega)
      have he := chain_last_endp hca (by omega)
      rw [hh, he, hplen, ZMod.natCast_self, add_zero]
    · have hg2 : geoms chain' = geoms (e₀ :: rest) := by
        simpa [geoms] using hg
      exact Multiset.coe_eq_coe.mp hg2

end LinkerInv

/-!  ## Conservation: every input edge ends up in exactly one loop -/

theorem attach?_geoms {V : Type*} [DecidableEq V] [Inhabited V]
    {chain : List (Edge V)} {e : Edge V} {chain' : List (Edge V)}
    (hA : attach? chain e = some chain') : geoms chain' = geoms chain + geoms [e] := by
  rcases attach?_eq_some_cases hA with ⟨_, rfl⟩ | ⟨_, rfl⟩ | ⟨_, rfl⟩ | ⟨_, rfl⟩
  · rw [geoms_append]
  · rw [show (e :: chain) = [e] ++ chain from rfl, geoms_append]
    abel
  · rw [show (e.reverse :: chain) = [e.reverse] ++ chain from rfl, geoms_append,
      geoms_single_reverse]
    abel
  · rw [geoms_append, geoms_single_reverse]

theorem innerPassAux_geoms {V : Type*} [DecidableEq V] [Inhabited V] :
    ∀ (rest kept chain : List (Edge V)),
      geoms (innerPassAux chain kept rest).1 + geoms (innerPassAux chain kept rest).2 =
        geoms chain + geoms (kept ++ rest)
  | [], kept, chain => by simp [innerPassAux]
  | e :: rest', kept, chain => by
    rw [innerPassAux.eq_def]
    cases hA : attach? chain e with
    | none =>
      simp only [hA]
      have h1 := innerPassAux_geoms rest' (kept ++ [e]) chain
      have h2 : (kept ++ [e]) ++ rest' = kept ++ e :: rest' := by simp
      rw [h2] at h1
      exact h1
    | some chain' =>
      simp only [hA]
      have hAg := attach?_geoms hA
      match rest' with
      | [] =>
        show geoms chain' + geoms kept = geoms chain + geoms (kept ++ [e])
        rw [hAg, geoms_append]
        abel
      | f :: rest2 =>
        have h1 := innerPassAux_geoms rest2 (kept ++ [f]) chain'
        rw [h1, hAg]
        rw [show (kept ++ [f]) ++ rest2 = kept ++ (f :: rest2) from by simp, geoms_append,
          show kept ++ e :: f :: rest2 = kept ++ ([e] ++ (f :: rest2)) from rfl, geoms_append,
          geoms_append]
        abel
termination_by rest => rest.length
decreasing_by
  · simp only [List.length_cons]
    omega
  · simp only [List.length_cons]
    omega

theorem innerPassAux_chain_ne {V : Type*} [DecidableEq V] [Inhabited V] :
    ∀ (rest kept chain : List (Edge V)), chain ≠ [] →
      (innerPassAux chain kept rest).1 ≠ []
  | [], kept, chain, hne => by simpa [innerPassAux] using hne
  | e :: rest', kept, chain, hne => by
    rw [innerPassAux.eq_def]
    cases hA : attach? chain e with
    | none =>
      simp only [hA]
      exact innerPassAux_chain_ne rest' (kept ++ [e]) chain hne
    | some chain' =>
      simp only [hA]
      have hne' : chain' ≠ [] := by
        rcases attach?_eq_some_cases hA with ⟨_, rfl⟩ | ⟨_, rfl⟩ | ⟨_, rfl⟩ | ⟨_, rfl⟩ <;> simp
      match rest' with
      | [] => simpa using hne'
      | f :: rest2 => exact innerPassAux_chain_ne rest2 (kept ++ [f]) chain' hne'
termination_by rest => rest.length
decreasing_by
  · simp only [List.length_cons]
    omega
  · simp only [List.length_cons]
    omega

theorem linkLoopFuel_geoms {V : Type*} [DecidableEq V] [Inhabited V] :
    ∀ (fuel : ℕ) (chain pool : List (Edge V)) (last : ℕ),
      geoms (linkLoopFuel fuel chain pool last).1 +
        geoms (linkLoopFuel fuel chain pool last).2 = geoms chain + geoms pool
  | 0, chain, pool, _ => rfl
  | fuel + 1, chain, pool, last => by
    rw [linkLoopFuel]
    by_cases hl : last = pool.length
    · rw [if_pos hl]
    · rw [if_neg hl]
      cases hip : innerPassAux chain [] pool with
      | mk c' p' =>
        show geoms (linkLoopFuel fuel c' p' pool.length).1 +
          geoms (linkLoopFuel fuel c' p' pool.length).2 = geoms chain + geoms pool
        rw [linkLoopFuel_geoms fuel c' p' pool.length]
        have h1 := innerPassAux_geoms pool [] chain
        rw [hip] at h1
        simpa using h1

theorem linkLoopFuel_chain_ne {V : Type*} [DecidableEq V] [Inhabited V] :
    ∀ (fuel : ℕ) (chain pool : List (Edge V)) (last : ℕ), chain ≠ [] →
      (linkLoopFuel fuel chain pool last).1 ≠ []
  | 0, chain, pool, _, hne => hne
  | fuel + 1, chain, pool, last, hne => by
    rw [linkLoopFuel]
    by_cases hl : last = pool.length
    · rw [if_pos hl]
      exact hne
    · rw [if_neg hl]
      cases hip : innerPassAux chain [] pool with
      | mk c' p' =>
        show (linkLoopFuel fuel c' p' pool.length).1 ≠ []
        apply linkLoopFuel_chain_ne fuel c' p' pool.length
        have h1 := innerPassAux_chain_ne pool [] chain hne
        rw [hip] at h1
        exact h1

/-- Every call of `create_path` on a nonempty list succeeds, returns a
nonempty chain, keeps every input edge (as chain edge, possibly
reversed, or residual pool edge), and consumes at least the seed. -/
theorem create_path_cons_spec {V : Type*} [DecidableEq V] [Inhabited V]
    (e : Edge V) (rest : List (Edge V)) :
    ∃ p u', create_path (e :: rest) = some (p, u') ∧ p ≠ [] ∧
      geoms p + geoms u' = geoms (e :: rest) ∧ u'.length ≤ rest.length := by
  have hfuel := linkLoop_eq_fuel (rest.length + 1) [e] rest 0 (by omega)
  cases hrun : linkLoopFuel (rest.length + 1) [e] rest 0 with
  | mk p u' =>
    refine ⟨p, u', ?_, ?_, ?_, ?_⟩
    · rw [create_path, ← hfuel, hrun]
    · have h1 := linkLoopFuel_chain_ne (rest.length + 1) [e] rest 0 (by simp)
      rw [hrun] at h1
      exact h1
    · have h1 := linkLoopFuel_geoms (rest.length + 1) [e] rest 0
      rw [hrun] at h1
      have h2 : geoms [e] + geoms rest = geoms (e :: rest) := by
        rw [show (e :: rest) = [e] ++ rest from rfl, geoms_append]
      simpa [h2] using h1
    · have h1 := linkLoopFuel_len (rest.length + 1) [e] rest 0
      rw [hrun] at h1
      simpa using h1

/-- Fueled evaluator for `driverLoop` (fuel above the pool size is
enough, `driverLoop_eq_fuel`). -/
def driverLoopFuel {V : Type*} [DecidableEq V] [Inhabited V] :
    ℕ → List (List (Edge V)) → List (Edge V) → ℕ →
      List (List (Edge V)) × List (Edge V)
  | 0, paths, unlinked, _ => (paths, unlinked)
  | fuel + 1, paths, unlinked, lastRemaining =>
    if 0 < unlinked.length ∧ unlinked.length ≠ lastRemaining then
      match create_path unlinked with
      | some (p, u) => driverLoopFuel fuel (paths ++ [p]) u unlinked.length
      | none => (paths, unlinked)
    else (paths, unlinked)

theorem driverLoop_eq_fuel {V : Type*} [DecidableEq V] [Inhabited V] :
    ∀ (fuel : ℕ) (paths : List (List (Edge V))) (unlinked : List (Edge V)) (last : ℕ),
      unlinked.length < fuel →
      driverLoopFuel fuel paths unlinked last = driverLoop paths unlinked last
  | fuel + 1, paths, unlinked, last, hf => by
    rw [driverLoop.eq_def, driverLoopFuel]
    by_cases hc : 0 < unlinked.length ∧ unlinked.length ≠ last
    · rw [if_pos hc, if_pos hc]
      cases unlinked with
      | nil => simp at hc
      | cons e rest =>
        obtain ⟨p, u', hcp, _, _, hulen⟩ := create_path_cons_spec e rest
        rw [hcp]
        show driverLoopFuel fuel (paths ++ [p]) u' (e :: rest).length =
          driverLoop (paths ++ [p]) u' (e :: rest).length
        apply driverLoop_eq_fuel fuel
        simp only [List.length_cons] at hf ⊢
        omega
    · rw [if_neg hc, if_neg hc]

/-- The driver loop always empties its pool: each iteration consumes at
least the seed edge, so progress is strict until the pool is empty. -/
theorem driverLoopFuel_drain {V : Type*} [DecidableEq V] [Inhabited V] :
    ∀ (fuel : ℕ) (paths : List (List (Edge V))) (unlinked : List (Edge V)) (last : ℕ),
      unlinked.length < fuel → (unlinked.length = last → unlinked = []) →
      ∃ paths', driverLoopFuel fuel paths unlinked last = (paths', []) ∧
        (paths'.map geoms).sum = (paths.map geoms).sum + geoms unlinked ∧
        ∀ p ∈ paths', p ∈ paths ∨ p ≠ []
  | fuel + 1, paths, unlinked, last, hf, hside => by
    rw [driverLoopFuel]
    by_cases hc : 0 < unlinked.length ∧ unlinked.length ≠ last
    · rw [if_pos hc]
      cases unlinked with
      | nil => simp at hc
      | cons e rest =>
        obtain ⟨p, u', hcp, hpne, hcons, hulen⟩ := create_path_cons_spec e rest
        rw [hcp]
        show ∃ paths', driverLoopFuel fuel (paths ++ [p]) u' (e :: rest).length = (paths', []) ∧
          (paths'.map geoms).sum = (paths.map geoms).sum + geoms (e :: rest) ∧
          ∀ q ∈ paths', q ∈ paths ∨ q ≠ []
        have hf' : u'.length < fuel := by
          simp only [List.length_cons] at hf
          omega
        have hside' : u'.length = (e :: rest).length → u' = [] := by
          intro h
          simp only [List.length_cons] at h
          omega
        obtain ⟨paths', hrun, hsum, hmem⟩ :=
          driverLoopFuel_drain fuel (paths ++ [p]) u' (e :: rest).length hf' hside'
        refine ⟨paths', hrun, ?_, ?_⟩
        · rw [hsum]
          simp only [List.map_append, List.sum_append, List.map_cons, List.map_nil,
            List.sum_cons, List.sum_nil]
          rw [← hcons]
          abel
        · intro q hq
          rcases hmem q hq with hq' | hq'
          · rcases List.mem_append.mp hq' with h | h
            · exact Or.inl h
            · simp only [List.mem_singleton] at h
              subst h
              exact Or.inr hpne
          · exact Or.inr hq'
    · rw [if_neg hc]
      have hnil : unlinked = [] := by
        rcases Decidable.not_and_iff_or_not.mp hc with h | h
        · have : unlinked.length = 0 := by omega
          exact List.length_eq_zero.mp this
        · exact hside (Decidable.not_not.mp h)
      subst hnil
      exact ⟨paths, rfl, by simp [geoms], fun p hp => Or.inl hp⟩

/-- The top-level driver always ends with an empty residual pool, and
the produced loops partition the input's edges (up to per-edge
reversal). -/
theorem driver_drains {V : Type*} [DecidableEq V] [Inhabited V]
    (edges : List (Edge V)) (hne : edges ≠ []) :
    ∃ paths, driver edges = some (paths, []) ∧
      (paths.map geoms).sum = geoms edges ∧ ∀ p ∈ paths, p ≠ [] := by
  cases edges with
  | nil => exact absurd rfl hne
  | cons e rest =>
    obtain ⟨p, u', hcp, hpne, hcons, hulen⟩ := create_path_cons_spec e rest
    rw [driver, hcp]
    have heq := driverLoop_eq_fuel (u'.length + 1) [p] u' 0 (by omega)
    obtain ⟨paths', hrun, hsum, hmem⟩ :=
      driverLoopFuel_drain (u'.length + 1) [p] u' 0 (by omega)
        (fun h => List.length_eq_zero.mp h)
    refine ⟨paths', ?_, ?_, ?_⟩
    · show some (driverLoop [p] u' 0) = some (paths', [])
      rw [← heq, hrun]
    · rw [hsum]
      simp only [List.map_cons, List.map_nil, List.sum_cons, List.sum_nil]
      rw [← hcons]
      abel
    · intro q hq
      rcases hmem q hq with hq' | hq'
      · simp only [List.mem_singleton] at hq'
        subst hq'
        exact hpne
      · exact hq'

/-!  ## The spec's "restart the scan" linker (claim C3)

Modelled from the spec: §4.2 step 2 says that on any match the matched
edge is removed from the pool and *the scan over the pool restarts from
the beginning*.  `findAttach` scans the pool in order for the first
edge passing one of the four tests (source priority order) and removes
it; the link loop repeats from scratch until no edge attaches.  Each
successful scan removes exactly one edge, so `pool.length` rounds are
exactly enough, which the fuel argument encodes. -/

def findAttach {V : Type*} [DecidableEq V] [Inhabited V] (chain : List (Edge V)) :
    List (Edge V) → Option (List (Edge V) × List (Edge V))
  | [] => none
  | e :: rest =>
    match attach? chain e with
    | some chain' => some (chain', rest)
    | none =>
      match findAttach chain rest with
      | some (chain', rest') => some (chain', e :: rest')
      | none => none

def restartLinkFuel {V : Type*} [DecidableEq V] [Inhabited V] :
    ℕ → List (Edge V) → List (Edge V) → List (Edge V) × List (Edge V)
  | 0, chain, pool => (chain, pool)
  | fuel + 1, chain, pool =>
    match findAttach chain pool with
    | some (chain', pool') => restartLinkFuel fuel chain' pool'
    | none => (chain, pool)

/-- Modelled from the spec: `create_path` as the spec's words describe
it, with the scan restarting from the beginning of the pool after every
match. -/
def create_path_restart {V : Type*} [DecidableEq V] [Inhabited V]
    (edges : List (Edge V)) : Option (List (Edge V) × List (Edge V)) :=
  match edges with
  | [] => none
  | e :: rest => some (restartLinkFuel rest.length [e] rest)

/-!  ## The nesting analyzer's sort (lines 415-428, claim C2)

`sorted(polygons, key=Within, reverse=True)` lets CPython's list sort
compare `Within`-wrapped polygons with `Within.__lt__`, that is with
shapely's strict-containment test `a.o.within(other.o)`.  Polygons and
`within` are abstract here (shapely is an external dependency); the
level-counting loop uses `.contains`, shapely's converse of `.within`
(`a.contains(b) ↔ b.within(a)`), so it is modelled through the same
`w` with arguments swapped.

For fewer than 64 elements CPython's `list.sort` performs: find the
initial run (`count_run`), reversing it in place when it is strictly
descending, then insert each remaining element into the sorted prefix
by binary search (`binarysort` in listobject.c).  `reverse=True` is
implemented by reversing the list before and after sorting (preserving
stability).  `pySortedRev` reproduces this algorithm exactly; the
claims about it therefore carry a `length < 64` hypothesis, the domain
on which this model is CPython's sort (PCB outlines have far fewer
contours). -/

/-- CPython `count_run`, non-descending arm: extend while not
`a[i] < a[i-1]`. -/
def ascRunLen {β : Type*} (lt : β → β → Bool) : β → List β → ℕ
  | _, [] => 0
  | prev, x :: xs => if lt x prev then 0 else ascRunLen lt x xs + 1

/-- CPython `count_run`, strictly-descending arm: extend while
`a[i] < a[i-1]`. -/
def descRunLen {β : Type*} (lt : β → β → Bool) : β → List β → ℕ
  | _, [] => 0
  | prev, x :: xs => if lt x prev then descRunLen lt x xs + 1 else 0

/-- CPython `count_run` plus the in-place reversal of a strictly
descending initial run. -/
def pyRunPrep {β : Type*} (lt : β → β → Bool) (l : List β) : ℕ × List β :=
  match l with
  | [] => (0, [])
  | [a] => (1, [a])
  | a :: b :: rest =>
    if lt b a then
      let r := 2 + descRunLen lt b rest
      (r, (l.take r).reverse ++ l.drop r)
    else (2 + ascRunLen lt b rest, l)

/-- CPython `binarysort`'s binary search for the insertion point of
`pivot` into the sorted slice `a[lo:hi]` (equal elements: insert
after). -/
def binLoc {β : Type*} [Inhabited β] (lt : β → β → Bool) (pivot : β)
    (a : List β) (lo hi : ℕ) : ℕ :=
  if lo < hi then
    let p := lo + (hi - lo) / 2
    if lt pivot (a.get! p) then binLoc lt pivot a lo p
    else binLoc lt pivot a (p + 1) hi
  else lo
termination_by hi - lo
decreasing_by
  · omega
  · omega

/-- Insert one element at its CPython `binarysort` position. -/
def binInsert {β : Type*} [Inhabited β] (lt : β → β → Bool) (acc : List β) (x : β) :
    List β :=
  let j := binLoc lt x acc 0 acc.length
  acc.take j ++ x :: acc.drop j

/-- CPython `binarysort`: insert the elements after the initial run one
by one. -/
def binsort {β : Type*} [Inhabited β] (lt : β → β → Bool) (run rest : List β) : List β :=
  rest.foldl (binInsert lt) run

/-- CPython `list.sort` with comparator `lt`, sub-64-element path. -/
def pySortSmall {β : Type*} [Inhabited β] (lt : β → β → Bool) (l : List β) : List β :=
  binsort lt ((pyRunPrep lt l).2.take (pyRunPrep lt l).1)
    ((pyRunPrep lt l).2.drop (pyRunPrep lt l).1)

/-- `sorted(l, key=…, reverse=True)`: CPython reverses the list before
and after an ascending sort. -/
def pySortedRev {β : Type*} [Inhabited β] (lt : β → β → Bool) (l : List β) : List β :=
  (pySortSmall lt l.reverse).reverse

/-- The level-assignment loop (lines 419-423): each sorted polygon's
level counts the polygons *earlier in the sorted order* that contain
it; `contains` is expressed through `w` (within) with arguments
swapped. -/
def nestLevels {P : Type*} [Inhabited P] (w : P → P → Bool) (sortedP : List P) : List ℕ :=
  (List.range sortedP.length).map
    (fun i => (sortedP.take i).countP (fun q => w (sortedP.get! i) q))

/-- Lines 415-428: containment sort, level counting, and the final sort
of `(polygon, level)` pairs by level descending. -/
def nestAssignment {P : Type*} [Inhabited P] (w : P → P → Bool) (polys : List P) :
    List (P × ℕ) :=
  pySortedRev (fun x y => Nat.blt x.2 y.2)
    ((pySortedRev w polys).zip (nestLevels w (pySortedRev w polys)))

/-- The number of polygons of the input set that strictly contain `p`
(what claim C2 says each assigned level should equal). -/
def containerCount {P : Type*} (w : P → P → Bool) (polys : List P) (p : P) : ℕ :=
  polys.countP (fun q => w p q)

/-!  ## Offsetting and the emission loop (lines 217-223, 430-442) -/

/-- `offset_polygon` (lines 217-223): buffer the polygon, then raise
`ValueError` when the result is invalid or empty.  `buffer`,
`is_valid` and `is_empty` are shapely's, abstract here. -/
def offset_polygon {P : Type*} (buffer : P → ℚ → P) (is_valid is_empty : P → Bool)
    (polygon : P) (distance : ℚ) : Except Unit P :=
  if !is_valid (buffer polygon distance) || is_empty (buffer polygon distance) then
    Except.error ()
  else
    Except.ok (buffer polygon distance)

/-- One entry of the output: a motion block for one offset contour, or
the footer. -/
inductive GItem (P : Type*) where
  | block (p : P)
  | footer
deriving DecidableEq

/-- The per-contour direction factor (line 431):
`1.0 if level % 2 == 0 else -1.0`. -/
def offsetDirection (level : ℕ) : ℚ := if level % 2 = 0 then 1 else -1

/-- The emission loop (lines 430-442): offset each contour by
`direction * tool / 2`; on `ValueError` print a warning and `continue`;
afterwards the footer is appended.  A motion block stands for the
G-code generated from its offset polygon. -/
def emitLoop {P : Type*} (buffer : P → ℚ → P) (is_valid is_empty : P → Bool)
    (tool : ℚ) : List (P × ℕ) → List (GItem P)
  | [] => [GItem.footer]
  | (polygon, level) :: rest =>
    match offset_polygon buffer is_valid is_empty polygon (offsetDirection level * tool / 2) with
    | Except.error _ => emitLoop buffer is_valid is_empty tool rest
    | Except.ok op => GItem.block op :: emitLoop buffer is_valid is_empty tool rest

/-!  ## The arc segmenter (`approximate_arc`, lines 246-285, claim C5) -/

/-- `np.linspace(s, e, num)`: `num` evenly spaced samples, endpoints
included (`s + i * (e - s) / (num - 1)`). -/
noncomputable def linspace (s e : ℝ) (num : ℕ) : List ℝ :=
  (List.range num).map (fun (i : ℕ) => s + (e - s) * i / ((num - 1 : ℕ) : ℝ))

/-- `complex(p.x, p.y)`. -/
noncomputable def complexOf (p : Point ℝ) : ℂ := ⟨p.x, p.y⟩

/-- `approximate_arc(arc, num_segments)` (lines 246-285): sample the
arc's angular span at `num_segments` points via `np.linspace` (after
the sweep-direction correction) and join consecutive sample points by
`Line`s — yielding `num_segments - 1` segments. -/
noncomputable def approximate_arc (arc : Edge (Point ℝ)) (num_segments : ℕ) :
    List (Edge (Point ℝ)) :=
  let start := complexOf arc.start
  let stop := complexOf arc.endp
  let center := complexOf arc.center
  let radius := Complex.abs (center - start)
  let start_angle := (start - center).arg
  let end_angle0 := (stop - center).arg
  let end_angle :=
    if !arc.clockwise then
      (if end_angle0 < start_angle then end_angle0 + 2 * Real.pi else end_angle0)
    else
      (if start_angle < end_angle0 then end_angle0 - 2 * Real.pi else end_angle0)
  let points := (linspace start_angle end_angle num_segments).map (fun (θ : ℝ) =>
    mkPoint TOLERANCE (center + (radius : ℂ) * Complex.exp (Complex.I * θ)).re
      (center + (radius : ℂ) * Complex.exp (Complex.I * θ)).im)
  (List.range (points.length - 1)).map
    (fun i => Edge.line (points.get! i) (points.get! (i + 1)))

/-!  ## Quantization facts (claims C7 and C9) -/

theorem pyRound_intCast {α : Type*} [LinearOrderedField α] [FloorRing α] (k : ℤ) :
    pyRound (k : α) = k := by
  rw [pyRound, Int.fract_intCast, if_pos (by norm_num : (0 : α) < 1 / 2)]
  exact Int.floor_intCast k

theorem quantize_idem {α : Type*} [LinearOrderedField α] [FloorRing α] (tol v : α) :
    quantize tol (quantize tol v) = quantize tol v := by
  by_cases h : 0 < tol
  · have hne : tol ≠ 0 := ne_of_gt h
    rw [quantize, if_pos h, quantize, if_pos h, mul_div_cancel_right₀ _ hne, pyRound_intCast]
  · rw [quantize, if_neg h]

/-- Both coordinates of `p` are integer multiples of `tol`. -/
def onGrid {α : Type*} [LinearOrderedField α] (tol : α) (p : Point α) : Prop :=
  (∃ k : ℤ, p.x = (k : α) * tol) ∧ (∃ m : ℤ, p.y = (m : α) * tol)

theorem quantize_grid {α : Type*} [LinearOrderedField α] [FloorRing α]
    {tol : α} (h : 0 < tol) (v : α) : ∃ k : ℤ, quantize tol v = (k : α) * tol :=
  ⟨pyRound (v / tol), by rw [quantize, if_pos h]⟩

theorem quantize_fix_of_grid {α : Type*} [LinearOrderedField α] [FloorRing α]
    {tol v : α} (hv : ∃ k : ℤ, v = (k : α) * tol) : quantize tol v = v := by
  by_cases h : 0 < tol
  · obtain ⟨k, rfl⟩ := hv
    rw [quantize, if_pos h, mul_div_cancel_right₀ _ (ne_of_gt h), pyRound_intCast]
  · rw [quantize, if_neg h]

theorem mkPoint_onGrid {α : Type*} [LinearOrderedField α] [FloorRing α]
    {tol : α} (h : 0 < tol) (x y : α) : onGrid tol (mkPoint tol x y) :=
  ⟨quantize_grid h x, quantize_grid h y⟩

theorem add_onGrid {α : Type*} [LinearOrderedField α] [FloorRing α]
    {tol : α} {p q : Point α} (hp : onGrid tol p) (hq : onGrid tol q) :
    Point.add tol p q = ⟨p.x + q.x, p.y + q.y⟩ ∧ onGrid tol (Point.add tol p q) := by
  obtain ⟨⟨k1, hk1⟩, ⟨m1, hm1⟩⟩ := hp
  obtain ⟨⟨k2, hk2⟩, ⟨m2, hm2⟩⟩ := hq
  have hx : p.x + q.x = ((k1 + k2 : ℤ) : α) * tol := by
    rw [hk1, hk2]
    push_cast
    ring
  have hy : p.y + q.y = ((m1 + m2 : ℤ) : α) * tol := by
    rw [hm1, hm2]
    push_cast
    ring
  have h1 : Point.add tol p q = ⟨p.x + q.x, p.y + q.y⟩ := by
    rw [Point.add, mkPoint, quantize_fix_of_grid ⟨k1 + k2, hx⟩,
      quantize_fix_of_grid ⟨m1 + m2, hy⟩]
  exact ⟨h1, by rw [h1]; exact ⟨⟨k1 + k2, hx⟩, ⟨m1 + m2, hy⟩⟩⟩

theorem sub_onGrid {α : Type*} [LinearOrderedField α] [FloorRing α]
    {tol : α} {p q : Point α} (hp : onGrid tol p) (hq : onGrid tol q) :
    Point.sub tol p q = ⟨p.x - q.x, p.y - q.y⟩ ∧ onGrid tol (Point.sub tol p q) := by
  obtain ⟨⟨k1, hk1⟩, ⟨m1, hm1⟩⟩ := hp
  obtain ⟨⟨k2, hk2⟩, ⟨m2, hm2⟩⟩ := hq
  have hx : p.x - q.x = ((k1 - k2 : ℤ) : α) * tol := by
    rw [hk1, hk2]
    push_cast
    ring
  have hy : p.y - q.y = ((m1 - m2 : ℤ) : α) * tol := by
    rw [hm1, hm2]
    push_cast
    ring
  have h1 : Point.sub tol p q = ⟨p.x - q.x, p.y - q.y⟩ := by
    rw [Point.sub, mkPoint, quantize_fix_of_grid ⟨k1 - k2, hx⟩,
      quantize_fix_of_grid ⟨m1 - m2, hy⟩]
  exact ⟨h1, by rw [h1]; exact ⟨⟨k1 - k2, hx⟩, ⟨m1 - m2, hy⟩⟩⟩

theorem quantize_intCast_tol (k : ℤ) : quantize (TOLERANCE : ℚ) (k : ℚ) = (k : ℚ) := by
  apply quantize_fix_of_grid
  refine ⟨64 * k, ?_⟩
  rw [TOLERANCE]
  push_cast
  ring

theorem mkPoint_intCast (x y : ℤ) :
    mkPoint (TOLERANCE : ℚ) (x : ℚ) (y : ℚ) = ⟨(x : ℚ), (y : ℚ)⟩ := by
  rw [mkPoint, quantize_intCast_tol, quantize_intCast_tol]

/-!  ## Correctness of the modelled CPython sort on totally ordered
inputs (amended claim C2) -/

theorem listGet!_eq {β : Type*} [Inhabited β] :
    ∀ (l : List β) (i : ℕ) (h : i < l.length), l.get! i = l.get ⟨i, h⟩
  | a :: _, 0, _ => rfl
  | a :: l, i + 1, h => by
    have := listGet!_eq l i (by simpa using h)
    simpa [List.get!] using this

theorem binInsert_perm {β : Type*} [Inhabited β] (lt : β → β → Bool)
    (acc : List β) (x : β) : (binInsert lt acc x).Perm (x :: acc) := by
  rw [binInsert]
  have h1 := @List.perm_middle _ x (acc.take (binLoc lt x acc 0 acc.length))
    (acc.drop (binLoc lt x acc 0 acc.length))
  rw [List.take_append_drop] at h1
  exact h1

theorem binsort_perm {β : Type*} [Inhabited β] (lt : β → β → Bool) :
    ∀ (rest run : List β), (binsort lt run rest).Perm (run ++ rest)
  | [], run => by simp [binsort]
  | x :: rest', run => by
    have h1 : binsort lt run (x :: rest') = binsort lt (binInsert lt run x) rest' := rfl
    rw [h1]
    have h2 := binsort_perm lt rest' (binInsert lt run x)
    have h3 : ((binInsert lt run x) ++ rest').Perm ((x :: run) ++ rest') :=
      (binInsert_perm lt run x).append_right rest'
    have h4 : ((x :: run) ++ rest').Perm (run ++ x :: rest') := by
      simpa using List.perm_middle.symm
    exact (h2.trans h3).trans h4

theorem pyRunPrep_perm {β : Type*} (lt : β → β → Bool) (l : List β) :
    (pyRunPrep lt l).2.Perm l := by
  rw [pyRunPrep.eq_def]
  match l with
  | [] => exact List.Perm.refl _
  | [a] => exact List.Perm.refl _
  | a :: b :: rest =>
    by_cases h : lt b a = true
    · simp only [if_pos h]
      have h1 : ((a :: b :: rest).take (2 + descRunLen lt b rest)).reverse.Perm
          ((a :: b :: rest).take (2 + descRunLen lt b rest)) := List.reverse_perm _
      have h2 := h1.append_right ((a :: b :: rest).drop (2 + descRunLen lt b rest))
      rw [List.take_append_drop] at h2
      exact h2
    · simp only [if_neg h]
      exact List.Perm.refl _

theorem pySortSmall_perm {β : Type*} [Inhabited β] (lt : β → β → Bool) (l : List β) :
    (pySortSmall lt l).Perm l := by
  rw [pySortSmall]
  have h1 := binsort_perm lt ((pyRunPrep lt l).2.drop (pyRunPrep lt l).1)
    ((pyRunPrep lt l).2.take (pyRunPrep lt l).1)
  rw [List.take_append_drop] at h1
  exact h1.trans (pyRunPrep_perm lt l)

theorem pySortedRev_perm {β : Type*} [Inhabited β] (lt : β → β → Bool) (l : List β) :
    (pySortedRev lt l).Perm l := by
  rw [pySortedRev]
  have h1 : (pySortSmall lt l.reverse).reverse.Perm (pySortSmall lt l.reverse) :=
    List.reverse_perm _
  exact (h1.trans (pySortSmall_perm lt l.reverse)).trans (List.reverse_perm l)

theorem lt_asymm_of {β : Type*} {lt : β → β → Bool}
    (htrans : ∀ a b c, lt a b = true → lt b c = true → lt a c = true)
    (hirr : ∀ a, lt a a = false) {a b : β}
    (h : lt a b = true) : lt b a = false := by
  cases hb : lt b a with
  | false => rfl
  | true =>
    have hcon := htrans a b a h hb
    rw [hirr a] at hcon
    exact Bool.noConfusion hcon

theorem binLoc_spec {β : Type*} [Inhabited β] {lt : β → β → Bool}
    (htrans : ∀ a b c, lt a b = true → lt b c = true → lt a c = true)
    (pivot : β) (acc : List β)
    (hs : List.Pairwise (fun a b => lt a b = true) acc)
    (lo hi : ℕ) (hhi : hi ≤ acc.length) (hlohi : lo ≤ hi)
    (hlow : ∀ i (h : i < acc.length), i < lo → lt pivot (acc.get ⟨i, h⟩) = false)
    (hhigh : ∀ i (h : i < acc.length), hi ≤ i → lt pivot (acc.get ⟨i, h⟩) = true) :
    binLoc lt pivot acc lo hi ≤ acc.length ∧
      (∀ i (h : i < acc.length), i < binLoc lt pivot acc lo hi →
        lt pivot (acc.get ⟨i, h⟩) = false) ∧
      (∀ i (h : i < acc.length), binLoc lt pivot acc lo hi ≤ i →
        lt pivot (acc.get ⟨i, h⟩) = true) := by
  by_cases hc : lo < hi
  · have hpacc : lo + (hi - lo) / 2 < acc.length := by omega
    have hunf : binLoc lt pivot acc lo hi =
        if lt pivot (acc.get! (lo + (hi - lo) / 2)) then
          binLoc lt pivot acc lo (lo + (hi - lo) / 2)
        else binLoc lt pivot acc (lo + (hi - lo) / 2 + 1) hi := by
      rw [binLoc, if_pos hc]
    have hget : acc.get! (lo + (hi - lo) / 2) = acc.get ⟨lo + (hi - lo) / 2, hpacc⟩ :=
      listGet!_eq acc _ hpacc
    by_cases hpv : lt pivot (acc.get ⟨lo + (hi - lo) / 2, hpacc⟩) = true
    · rw [hunf, hget, if_pos hpv]
      refine binLoc_spec htrans pivot acc hs lo (lo + (hi - lo) / 2) (by omega) (by omega)
        hlow ?_
      intro i h hi2
      rcases Nat.eq_or_lt_of_le hi2 with heq | hlt2
      · have hfe : (⟨i, h⟩ : Fin acc.length) = ⟨lo + (hi - lo) / 2, hpacc⟩ :=
          Fin.ext heq.symm
        rw [hfe]; exact hpv
      · have hsij := (List.pairwise_iff_get.mp hs) ⟨lo + (hi - lo) / 2, hpacc⟩ ⟨i, h⟩ hlt2
        exact htrans _ _ _ hpv hsij
    · have hpvf : lt pivot (acc.get ⟨lo + (hi - lo) / 2, hpacc⟩) = false := by
        simpa using hpv
      rw [hunf, hget, if_neg hpv]
      refine binLoc_spec htrans pivot acc hs (lo + (hi - lo) / 2 + 1) hi hhi (by omega)
        ?_ hhigh
      intro i h hi2
      rcases Nat.lt_trichotomy i (lo + (hi - lo) / 2) with hlt2 | heq | hgt
      · rcases Nat.lt_or_ge i lo with hilo | hge
        · exact hlow i h hilo
        · cases hq : lt pivot (acc.get ⟨i, h⟩) with
          | false => rfl
          | true =>
            have hsij := (List.pairwise_iff_get.mp hs) ⟨i, h⟩
              ⟨lo + (hi - lo) / 2, hpacc⟩ hlt2
            have hcon := htrans _ _ _ hq hsij
            rw [hpvf] at hcon
            exact Bool.noConfusion hcon
      · have hfe : (⟨i, h⟩ : Fin acc.length) = ⟨lo + (hi - lo) / 2, hpacc⟩ :=
          Fin.ext heq
        rw [hfe]; exact hpvf
      · omega
  · have hunf : binLoc lt pivot acc lo hi = lo := by rw [binLoc, if_neg hc]
    refine ⟨by omega, ?_, ?_⟩
    · intro i h hi2; rw [hunf] at hi2; exact hlow i h hi2
    · intro i h hi2; rw [hunf] at hi2; exact hhigh i h (by omega)
termination_by hi - lo
decreasing_by
  · omega
  · omega

theorem mem_take_iff_get {β : Type*} :
    ∀ (l : List β) (j : ℕ) (b : β), b ∈ l.take j →
      ∃ k, ∃ hk : k < l.length, k < j ∧ l.get ⟨k, hk⟩ = b
  | _, 0, _, hb => absurd hb (by simp)
  | [], _ + 1, _, hb => absurd hb (by simp)
  | a :: l, j + 1, b, hb => by
    rw [List.take_succ_cons] at hb
    rcases List.mem_cons.mp hb with heq | hmem
    · exact ⟨0, Nat.succ_pos _, Nat.succ_pos _, heq.symm⟩
    · obtain ⟨k, hk, hkj, heq⟩ := mem_take_iff_get l j b hmem
      exact ⟨k + 1, Nat.succ_lt_succ hk, Nat.succ_lt_succ hkj, heq⟩

theorem mem_drop_iff_get {β : Type*} :
    ∀ (l : List β) (j : ℕ) (b : β), b ∈ l.drop j →
      ∃ k, ∃ hk : k < l.length, j ≤ k ∧ l.get ⟨k, hk⟩ = b
  | l, 0, b, hb => by
    obtain ⟨k, heq⟩ := List.mem_iff_get.mp hb
    exact ⟨k.1, k.2, Nat.zero_le _, heq⟩
  | [], _ + 1, _, hb => absurd hb (by simp)
  | _ :: l, j + 1, b, hb => by
    obtain ⟨k, hk, hjk, heq⟩ := mem_drop_iff_get l j b hb
    exact ⟨k + 1, Nat.succ_lt_succ hk, Nat.succ_le_succ hjk, heq⟩

theorem binInsert_sorted {β : Type*} [Inhabited β] {lt : β → β → Bool}
    (htrans : ∀ a b c, lt a b = true → lt b c = true → lt a c = true)
    {acc : List β} {x : β}
    (hs : List.Pairwise (fun a b => lt a b = true) acc)
    (htot : ∀ a ∈ acc, lt a x = true ∨ lt x a = true) :
    List.Pairwise (fun a b => lt a b = true) (binInsert lt acc x) := by
  obtain ⟨hj1, hj2, hj3⟩ := binLoc_spec htrans x acc hs 0 acc.length le_rfl
    (Nat.zero_le _)
    (fun i h hi => absurd hi (Nat.not_lt_zero i))
    (fun i h hi => absurd h (by omega))
  rw [binInsert]
  show List.Pairwise (fun a b => lt a b = true)
    (acc.take (binLoc lt x acc 0 acc.length) ++
      x :: acc.drop (binLoc lt x acc 0 acc.length))
  rw [List.pairwise_append]
  refine ⟨hs.sublist (List.take_sublist _ _), ?_, ?_⟩
  · rw [List.pairwise_cons]
    refine ⟨?_, hs.sublist (List.drop_sublist _ _)⟩
    intro b hb
    obtain ⟨k, hk, hjk, heq⟩ := mem_drop_iff_get acc _ b hb
    rw [← heq]
    exact hj3 k hk hjk
  · intro a ha b hb
    obtain ⟨k, hk, hkj, heqa⟩ := mem_take_iff_get acc _ a ha
    rcases List.mem_cons.mp hb with rfl | hbd
    · have hfalse := hj2 k hk hkj
      rcases htot a (List.mem_of_mem_take ha) with h1 | h2
      · exact h1
      · rw [heqa, h2] at hfalse
        exact Bool.noConfusion hfalse
    · obtain ⟨m, hm, hjm, heqb⟩ := mem_drop_iff_get acc _ b hbd
      rw [← heqa, ← heqb]
      exact (List.pairwise_iff_get.mp hs) ⟨k, hk⟩ ⟨m, hm⟩ (Fin.mk_lt_mk.mpr (by omega))

theorem binsort_sorted {β : Type*} [Inhabited β] {lt : β → β → Bool}
    (htrans : ∀ a b c, lt a b = true → lt b c = true → lt a c = true) :
    ∀ (rest run : List β),
      List.Pairwise (fun a b => lt a b = true) run →
      (run ++ rest).Nodup →
      (∀ a ∈ run ++ rest, ∀ b ∈ run ++ rest, a ≠ b →
        lt a b = true ∨ lt b a = true) →
      List.Pairwise (fun a b => lt a b = true) (binsort lt run rest)
  | [], run, hrun, _, _ => by simpa [binsort] using hrun
  | x :: rest', run, hrun, hnd, htot => by
    have hxrun : x ∉ run := fun hmem =>
      (List.nodup_append.mp hnd).2.2 hmem (List.mem_cons_self x rest')
    have hins : List.Pairwise (fun a b => lt a b = true) (binInsert lt run x) :=
      binInsert_sorted htrans hrun (fun a ha =>
        htot a (List.mem_append_left _ ha) x
          (List.mem_append_right _ (List.mem_cons_self x rest'))
          (fun heq => hxrun (heq ▸ ha)))
    have hperm : (binInsert lt run x ++ rest').Perm (run ++ x :: rest') := by
      have h1 := (binInsert_perm lt run x).append_right rest'
      exact h1.trans (@List.perm_middle _ x run rest').symm
    have hrec := binsort_sorted htrans rest' (binInsert lt run x) hins
      (hperm.symm.nodup hnd)
      (fun a ha b hb hab =>
        htot a (hperm.mem_iff.mp ha) b (hperm.mem_iff.mp hb) hab)
    have hstep : binsort lt run (x :: rest') = binsort lt (binInsert lt run x) rest' :=
      rfl
    rw [hstep]
    exact hrec

theorem ascRunLen_le {β : Type*} (lt : β → β → Bool) :
    ∀ (rest : List β) (prev : β), ascRunLen lt prev rest ≤ rest.length
  | [], _ => Nat.le_refl _
  | x :: xs, prev => by
    rw [ascRunLen]
    by_cases h : lt x prev = true
    · simp [h]
    · have hf : lt x prev = false := by simpa using h
      rw [hf]
      simpa using Nat.succ_le_succ (ascRunLen_le lt xs x)

theorem descRunLen_le {β : Type*} (lt : β → β → Bool) :
    ∀ (rest : List β) (prev : β), descRunLen lt prev rest ≤ rest.length
  | [], _ => Nat.le_refl _
  | x :: xs, prev => by
    rw [descRunLen]
    by_cases h : lt x prev = true
    · rw [h]
      simpa using Nat.succ_le_succ (descRunLen_le lt xs x)
    · have hf : lt x prev = false := by simpa using h
      simp [hf]

theorem ascRun_chain {β : Type*} (lt : β → β → Bool) :
    ∀ (rest : List β) (prev : β),
      List.Chain' (fun u v => lt v u = false) (prev :: rest.take (ascRunLen lt prev rest))
  | [], prev => by simp
  | x :: xs, prev => by
    rw [ascRunLen]
    by_cases h : lt x prev = true
    · simp [h]
    · have hf : lt x prev = false := by simpa using h
      rw [hf]
      simp only [Bool.false_eq_true, if_false, List.take_succ_cons]
      rw [List.chain'_cons]
      exact ⟨hf, ascRun_chain lt xs x⟩

theorem descRun_chain {β : Type*} (lt : β → β → Bool) :
    ∀ (rest : List β) (prev : β),
      List.Chain' (fun u v => lt v u = true) (prev :: rest.take (descRunLen lt prev rest))
  | [], prev => by simp
  | x :: xs, prev => by
    rw [descRunLen]
    by_cases h : lt x prev = true
    · rw [h]
      simp only [if_true, List.take_succ_cons]
      rw [List.chain'_cons]
      exact ⟨h, descRun_chain lt xs x⟩
    · have hf : lt x prev = false := by simpa using h
      simp [hf]

theorem chain_flip_to_lt {β : Type*} {lt : β → β → Bool} :
    ∀ (l : List β), List.Chain' (fun u v => lt v u = false) l → l.Nodup →
      (∀ a ∈ l, ∀ b ∈ l, a ≠ b → lt a b = true ∨ lt b a = true) →
      List.Chain' (fun u v => lt u v = true) l
  | [], _, _, _ => List.chain'_nil
  | [a], _, _, _ => List.chain'_singleton a
  | a :: b :: l, hch, hnd, htot => by
    rw [List.chain'_cons] at hch ⊢
    have hne : a ≠ b := fun heq =>
      (List.nodup_cons.mp hnd).1 (heq ▸ List.mem_cons_self b l)
    refine ⟨?_, chain_flip_to_lt (b :: l) hch.2 (List.Nodup.of_cons hnd)
      (fun a' ha' b' hb' => htot a' (List.mem_cons_of_mem _ ha')
        b' (List.mem_cons_of_mem _ hb'))⟩
    rcases htot a (List.mem_cons_self _ _) b
        (List.mem_cons_of_mem _ (List.mem_cons_self _ _)) hne with h1 | h2
    · exact h1
    · rw [h2] at hch
      exact Bool.noConfusion hch.1

theorem chain_lt_pairwise {β : Type*} {lt : β → β → Bool}
    (htrans : ∀ a b c, lt a b = true → lt b c = true → lt a c = true)
    {l : List β} (h : List.Chain' (fun u v => lt u v = true) l) :
    List.Pairwise (fun a b => lt a b = true) l := by
  haveI : IsTrans β (fun a b => lt a b = true) := ⟨fun a b c => htrans a b c⟩
  exact List.chain'_iff_pairwise.mp h

theorem pyRunPrep_sorted {β : Type*} {lt : β → β → Bool}
    (htrans : ∀ a b c, lt a b = true → lt b c = true → lt a c = true) :
    ∀ (l : List β), l.Nodup →
      (∀ a ∈ l, ∀ b ∈ l, a ≠ b → lt a b = true ∨ lt b a = true) →
      List.Pairwise (fun a b => lt a b = true)
        ((pyRunPrep lt l).2.take (pyRunPrep lt l).1)
  | [], _, _ => by simp [pyRunPrep]
  | [a], _, _ => by simp [pyRunPrep]
  | a :: b :: rest, hnd, htot => by
    by_cases h : lt b a = true
    · have hr2 : 2 + descRunLen lt b rest = descRunLen lt b rest + 2 := by omega
      have hrlen : 2 + descRunLen lt b rest ≤ (a :: b :: rest).length := by
        have := descRunLen_le lt rest b
        simp only [List.length_cons]
        omega
      have hxlen : (((a :: b :: rest).take (2 + descRunLen lt b rest)).reverse).length =
          2 + descRunLen lt b rest := by
        simp only [List.length_reverse, List.length_take]
        omega
      have hval : pyRunPrep lt (a :: b :: rest) =
          (2 + descRunLen lt b rest,
           ((a :: b :: rest).take (2 + descRunLen lt b rest)).reverse ++
             (a :: b :: rest).drop (2 + descRunLen lt b rest)) := by
        simp only [pyRunPrep, h, if_true]
      rw [hval]
      show List.Pairwise (fun a b => lt a b = true)
        ((((a :: b :: rest).take (2 + descRunLen lt b rest)).reverse ++
          (a :: b :: rest).drop (2 + descRunLen lt b rest)).take
          (2 + descRunLen lt b rest))
      rw [List.take_append_of_le_length (le_of_eq hxlen.symm),
          List.take_of_length_le (le_of_eq hxlen)]
      apply chain_lt_pairwise htrans
      rw [List.chain'_reverse]
      have htake : (a :: b :: rest).take (2 + descRunLen lt b rest) =
          a :: b :: rest.take (descRunLen lt b rest) := by
        rw [hr2, List.take_succ_cons, List.take_succ_cons]
      rw [htake]
      rw [List.chain'_cons]
      exact ⟨h, descRun_chain lt rest b⟩
    · have hf : lt b a = false := by simpa using h
      have hval : pyRunPrep lt (a :: b :: rest) =
          (2 + ascRunLen lt b rest, a :: b :: rest) := by
        simp only [pyRunPrep, hf, Bool.false_eq_true, if_false]
      rw [hval]
      show List.Pairwise (fun a b => lt a b = true)
        ((a :: b :: rest).take (2 + ascRunLen lt b rest))
      have hr2 : 2 + ascRunLen lt b rest = ascRunLen lt b rest + 2 := by omega
      have htake : (a :: b :: rest).take (2 + ascRunLen lt b rest) =
          a :: b :: rest.take (ascRunLen lt b rest) := by
        rw [hr2, List.take_succ_cons, List.take_succ_cons]
      rw [htake]
      apply chain_lt_pairwise htrans
      apply chain_flip_to_lt
      · rw [List.chain'_cons]
        exact ⟨hf, ascRun_chain lt rest b⟩
      · rw [← htake]
        exact hnd.sublist (List.take_sublist _ _)
      · rw [← htake]
        intro a' ha' b' hb'
        exact htot a' (List.mem_of_mem_take ha') b' (List.mem_of_mem_take hb')

theorem pySortSmall_sorted {β : Type*} [Inhabited β] {lt : β → β → Bool}
    (htrans : ∀ a b c, lt a b = true → lt b c = true → lt a c = true)
    (l : List β) (hnd : l.Nodup)
    (htot : ∀ a ∈ l, ∀ b ∈ l, a ≠ b → lt a b = true ∨ lt b a = true) :
    List.Pairwise (fun a b => lt a b = true) (pySortSmall lt l) := by
  rw [pySortSmall]
  apply binsort_sorted htrans
  · exact pyRunPrep_sorted htrans l hnd htot
  · rw [List.take_append_drop]
    exact (pyRunPrep_perm lt l).symm.nodup hnd
  · rw [List.take_append_drop]
    intro a ha b hb hab
    exact htot a ((pyRunPrep_perm lt l).mem_iff.mp ha)
      b ((pyRunPrep_perm lt l).mem_iff.mp hb) hab

theorem pySortedRev_sorted {β : Type*} [Inhabited β] {lt : β → β → Bool}
    (htrans : ∀ a b c, lt a b = true → lt b c = true → lt a c = true)
    (l : List β) (hnd : l.Nodup)
    (htot : ∀ a ∈ l, ∀ b ∈ l, a ≠ b → lt a b = true ∨ lt b a = true) :
    List.Pairwise (fun a b => lt b a = true) (pySortedRev lt l) := by
  rw [pySortedRev, List.pairwise_reverse]
  exact pySortSmall_sorted htrans l.reverse (List.nodup_reverse.mpr hnd)
    (fun a ha b hb hab =>
      htot a (List.mem_reverse.mp ha) b (List.mem_reverse.mp hb) hab)

theorem mem_zip_get {γ δ : Type*} :
    ∀ (l : List γ) (l' : List δ) (pr : γ × δ), pr ∈ l.zip l' →
      ∃ i, ∃ h1 : i < l.length, ∃ h2 : i < l'.length,
        pr.1 = l.get ⟨i, h1⟩ ∧ pr.2 = l'.get ⟨i, h2⟩
  | [], _, pr, h => absurd h (by simp)
  | _ :: _, [], pr, h => absurd h (by simp)
  | a :: l, b :: l', pr, h => by
    rw [List.zip_cons_cons] at h
    rcases List.mem_cons.mp h with heq | hmem
    · exact ⟨0, Nat.succ_pos _, Nat.succ_pos _, by subst heq; rfl, by subst heq; rfl⟩
    · obtain ⟨i, h1, h2, hp1, hp2⟩ := mem_zip_get l l' pr hmem
      exact ⟨i + 1, Nat.succ_lt_succ h1, Nat.succ_lt_succ h2, hp1, hp2⟩

theorem sorted_level_eq_count {P : Type*} {w : P → P → Bool}
    (htrans : ∀ a b c, w a b = true → w b c = true → w a c = true)
    (hirr : ∀ a, w a a = false)
    {r : List P} (hsort : List.Pairwise (fun a b => w b a = true) r)
    (i : ℕ) (hi : i < r.length) (p : P) (hp : p = r.get ⟨i, hi⟩) :
    (r.take i).countP (fun q => w p q) = r.countP (fun q => w p q) := by
  conv_rhs => rw [← List.take_append_drop i r]
  rw [List.countP_append]
  have hdrop : (r.drop i).countP (fun q => w p q) = 0 := by
    rw [List.countP_eq_zero]
    intro b hb
    obtain ⟨k, hk, hik, heq⟩ := mem_drop_iff_get r i b hb
    rcases Nat.eq_or_lt_of_le hik with heqk | hltk
    · have hfe : (⟨k, hk⟩ : Fin r.length) = ⟨i, hi⟩ := Fin.ext heqk.symm
      rw [← heq, hfe, hp]
      simp [hirr]
    · have hdesc := (List.pairwise_iff_get.mp hsort) ⟨i, hi⟩ ⟨k, hk⟩ hltk
      have hasym := lt_asymm_of htrans hirr hdesc
      rw [← heq, hp]
      simpa using hasym
  omega

theorem nestAssignment_level_eq {P : Type*} [Inhabited P] {w : P → P → Bool}
    (htrans : ∀ a b c, w a b = true → w b c = true → w a c = true)
    (hirr : ∀ a, w a a = false)
    (polys : List P) (hnd : polys.Nodup)
    (htot : ∀ a ∈ polys, ∀ b ∈ polys, a ≠ b → w a b = true ∨ w b a = true) :
    ∀ pr ∈ nestAssignment w polys, pr.2 = containerCount w polys pr.1 := by
  intro pr hpr
  rw [nestAssignment] at hpr
  have hzip : pr ∈ (pySortedRev w polys).zip (nestLevels w (pySortedRev w polys)) :=
    (pySortedRev_perm _ _).mem_iff.mp hpr
  obtain ⟨i, h1, h2, hp1, hp2⟩ :=
    mem_zip_get (pySortedRev w polys) (nestLevels w (pySortedRev w polys)) pr hzip
  have hg : (pySortedRev w polys).get! i = (pySortedRev w polys).get ⟨i, h1⟩ :=
    listGet!_eq _ i h1
  have hlev : (nestLevels w (pySortedRev w polys)).get ⟨i, h2⟩ =
      ((pySortedRev w polys).take i).countP
        (fun q => w ((pySortedRev w polys).get ⟨i, h1⟩) q) := by
    simp only [nestLevels, List.get_eq_getElem, List.getElem_map, List.getElem_range, hg]
  calc pr.2 = ((pySortedRev w polys).take i).countP
        (fun q => w ((pySortedRev w polys).get ⟨i, h1⟩) q) := by rw [hp2, hlev]
    _ = (pySortedRev w polys).countP
        (fun q => w ((pySortedRev w polys).get ⟨i, h1⟩) q) :=
      sorted_level_eq_count htrans hirr
        (pySortedRev_sorted htrans polys hnd htot) i h1 _ rfl
    _ = polys.countP (fun q => w ((pySortedRev w polys).get ⟨i, h1⟩) q) :=
      (pySortedRev_perm w polys).countP_eq _
    _ = containerCount w polys pr.1 := by rw [containerCount, hp1]

/-!  ## The claims -/

/-- C1: for every complete, non-degenerate edge set describing a single
closed shape — an edge list that is, up to order and per-edge reversal,
the side list of a cycle on n ≥ 2 distinct vertices — one run of
`create_path` returns exactly one closed loop (the first edge's start
equals the last edge's end) containing all input edges (same multiset
of geometric identities), together with an empty orphan list. -/
theorem C1_linker_single_cycle {V : Type*} [DecidableEq V] [Inhabited V]
    {n : ℕ} {u : ZMod n → V} (hn : 2 ≤ n)
    (hu : ∀ i j : ZMod n, u i = u j → i = j)
    (edges : List (Edge V)) (hcyc : IsClosedCycle n u edges) :
    ∃ path, create_path edges = some (path, []) ∧ path.length = n ∧
      (listHead path).start = (listLast path).endp ∧
      (path.map geom).Perm (edges.map geom) :=
  create_path_cycle_run hn hu edges hcyc

/-- A concrete 4-cycle on integer vertices 0,1,2,3: its sides supplied
out of order and with two of them reversed. -/
def uSq : ZMod 4 → ℤ := fun i => if i = 0 then 0 else if i = 1 then 1 else if i = 2 then 2 else 3

def sqEdgesZ : List (Edge ℤ) :=
  [Edge.line 3 2, Edge.line 0 1, Edge.line 3 0, Edge.line 2 1]

def zSq : List (Edge ℤ × ZMod 4) :=
  [(Edge.line 3 2, 2), (Edge.line 0 1, 0), (Edge.line 3 0, 3), (Edge.line 2 1, 1)]

theorem sqEdgesZ_cycle : IsClosedCycle 4 uSq sqEdgesZ :=
  ⟨zSq, by decide, by decide, by simp only [occupies]; decide⟩

theorem C1_linker_single_cycle_witness :
    (2 ≤ 4 ∧ (∀ i j : ZMod 4, uSq i = uSq j → i = j) ∧ IsClosedCycle 4 uSq sqEdgesZ) ∧
    ∃ path, create_path sqEdgesZ = some (path, []) ∧ path.length = 4 ∧
      (listHead path).start = (listLast path).endp ∧
      (path.map geom).Perm (sqEdgesZ.map geom) :=
  ⟨⟨by norm_num, by decide, sqEdgesZ_cycle⟩,
   C1_linker_single_cycle (by norm_num) (by decide) sqEdgesZ sqEdgesZ_cycle⟩

/-- C2 (corrected): when strict containment is transitive and
irreflexive and every two distinct polygons of the (duplicate-free,
sub-64-element) input are comparable — the polygons form a chain, as
three concentric squares do — the nesting analyzer assigns every
polygon a level equal to the number of input polygons strictly
containing it, and the signed offset distance is +tool/2 at even levels
and −tool/2 at odd levels.  (For laminar families that are not chains
the level assignment is wrong: `C2_nesting_counterexample`.) -/
theorem C2_nesting_levels {P : Type*} [Inhabited P] {w : P → P → Bool}
    (htrans : ∀ a b c, w a b = true → w b c = true → w a c = true)
    (hirr : ∀ a, w a a = false)
    (polys : List P) (hnd : polys.Nodup) (hsmall : polys.length < 64)
    (htot : ∀ a ∈ polys, ∀ b ∈ polys, a ≠ b → w a b = true ∨ w b a = true) :
    (∀ pr ∈ nestAssignment w polys, pr.2 = containerCount w polys pr.1) ∧
      (∀ (level : ℕ) (tool : ℚ),
        offsetDirection level * tool / 2 =
          if level % 2 = 0 then tool / 2 else -(tool / 2)) := by
  refine ⟨nestAssignment_level_eq htrans hirr polys hnd htot, ?_⟩
  intro level tool
  rw [offsetDirection]
  by_cases h : level % 2 = 0
  · rw [if_pos h, if_pos h]
    ring
  · rw [if_neg h, if_neg h]
    ring

/-- Strict containment for a chain of three concentric polygons:
polygon 2 inside polygon 1 inside polygon 0. -/
def wChain : Fin 3 → Fin 3 → Bool := fun a b => Nat.blt b.1 a.1

theorem C2_nesting_levels_witness :
    ((∀ a b c : Fin 3, wChain a b = true → wChain b c = true → wChain a c = true) ∧
     (∀ a : Fin 3, wChain a a = false) ∧
     ([0, 1, 2] : List (Fin 3)).Nodup ∧
     ([0, 1, 2] : List (Fin 3)).length < 64 ∧
     (∀ a ∈ ([0, 1, 2] : List (Fin 3)), ∀ b ∈ ([0, 1, 2] : List (Fin 3)), a ≠ b →
       wChain a b = true ∨ wChain b a = true)) ∧
    ((∀ pr ∈ nestAssignment wChain [0, 1, 2],
        pr.2 = containerCount wChain [0, 1, 2] pr.1) ∧
      (∀ (level : ℕ) (tool : ℚ),
        offsetDirection level * tool / 2 =
          if level % 2 = 0 then tool / 2 else -(tool / 2))) :=
  ⟨⟨by decide, by decide, by decide, by decide, by decide⟩,
   C2_nesting_levels (by decide) (by decide) [0, 1, 2] (by decide) (by decide) (by decide)⟩

/-- A laminar family that is not a chain: polygon 0 lies strictly
inside polygon 2, polygon 1 is disjoint from both. -/
def w0 : Fin 3 → Fin 3 → Bool := fun a b => a == 0 && b == 2

def ctrPolys : List (Fin 3) := [0, 1, 2]

/-- C2 counterexample: the containment relation `w0` is transitive,
irreflexive and asymmetric (the polygons are pairwise strictly nested
or disjoint), yet the nesting analyzer assigns polygon 0 the level 0
while exactly one input polygon strictly contains it. -/
theorem C2_nesting_counterexample :
    (∀ a b c : Fin 3, w0 a b = true → w0 b c = true → w0 a c = true) ∧
    (∀ a : Fin 3, w0 a a = false) ∧
    (∀ a b : Fin 3, w0 a b = true → w0 b a = false) ∧
    ((0, 0) : Fin 3 × ℕ) ∈ nestAssignment w0 ctrPolys ∧
    containerCount w0 ctrPolys 0 = 1 := by decide

/-- C3 (corrected): each pool edge is tested against the chain in the
priority order (a) append, (b) prepend, (c) prepend-reversed,
(d) append-reversed, and a matched edge is removed from the pool — but
the scan does not restart from the beginning: it continues in place
over the mutated list, which skips the element that slid into the
removed edge's slot (`innerPassAux`'s zipper semantics). -/
theorem C3_attach_priority_and_scan {V : Type*} [DecidableEq V] [Inhabited V]
    (chain pool : List (Edge V)) (e : Edge V) :
    ((listLast chain).endp = e.start → attach? chain e = some (chain ++ [e])) ∧
    ((listLast chain).endp ≠ e.start → (listHead chain).start = e.endp →
      attach? chain e = some (e :: chain)) ∧
    ((listLast chain).endp ≠ e.start → (listHead chain).start ≠ e.endp →
      (listHead chain).start = e.start → attach? chain e = some (e.reverse :: chain)) ∧
    ((listLast chain).endp ≠ e.start → (listHead chain).start ≠ e.endp →
      (listHead chain).start ≠ e.start → (listLast chain).endp = e.endp →
      attach? chain e = some (chain ++ [e.reverse])) ∧
    ((listLast chain).endp ≠ e.start → (listHead chain).start ≠ e.endp →
      (listHead chain).start ≠ e.start → (listLast chain).endp ≠ e.endp →
      attach? chain e = none) ∧
    innerPass chain pool 0 = innerPassAux chain [] pool := by
  refine ⟨?_, ?_, ?_, ?_, ?_, ?_⟩
  · intro h1
    rw [attach?, if_pos h1]
  · intro h1 h2
    rw [attach?, if_neg h1, if_pos h2]
  · intro h1 h2 h3
    rw [attach?, if_neg h1, if_neg h2, if_pos h3]
  · intro h1 h2 h3 h4
    rw [attach?, if_neg h1, if_neg h2, if_neg h3, if_pos h4]
  · intro h1 h2 h3 h4
    rw [attach?, if_neg h1, if_neg h2, if_neg h3, if_neg h4]
  · simpa using innerPass_eq_zipper pool [] chain

theorem C3_attach_priority_witness :
    (listLast [Edge.line (0 : ℤ) 1]).endp = (Edge.line (1 : ℤ) 2).start ∧
    attach? [Edge.line (0 : ℤ) 1] (Edge.line 1 2) =
      some ([Edge.line (0 : ℤ) 1] ++ [Edge.line 1 2]) ∧
    innerPass [Edge.line (0 : ℤ) 1] [Edge.line (1 : ℤ) 2] 0 =
      innerPassAux [Edge.line (0 : ℤ) 1] [] [Edge.line (1 : ℤ) 2] :=
  ⟨by decide,
   (C3_attach_priority_and_scan [Edge.line 0 1] [Edge.line 1 2] (Edge.line 1 2)).1
     (by decide),
   (C3_attach_priority_and_scan [Edge.line 0 1] [Edge.line 1 2] (Edge.line 1 2)).2.2.2.2.2⟩

/-- A unit square supplied in cyclic order, each corner built by the
`Point` constructor. -/
def sqPt (x y : ℤ) : Point ℚ := mkPoint TOLERANCE (x : ℚ) (y : ℚ)

def sqEdges : List (Edge (Point ℚ)) :=
  [Edge.line (sqPt 0 0) (sqPt 1 0), Edge.line (sqPt 1 0) (sqPt 1 1),
   Edge.line (sqPt 1 1) (sqPt 0 1), Edge.line (sqPt 0 1) (sqPt 0 0)]

/-- C3 counterexample: on the unit square supplied in cyclic order the
program's scan (which continues past a removal, skipping one element)
returns a different chain than the spec's restart-the-scan rule. -/
theorem C3_restart_counterexample : create_path sqEdges ≠ create_path_restart sqEdges := by
  have hpt : ∀ x y : ℤ, sqPt x y = ⟨(x : ℚ), (y : ℚ)⟩ := fun x y => mkPoint_intCast x y
  rw [show sqEdges = [Edge.line (⟨0, 0⟩ : Point ℚ) ⟨1, 0⟩, .line ⟨1, 0⟩ ⟨1, 1⟩,
      .line ⟨1, 1⟩ ⟨0, 1⟩, .line ⟨0, 1⟩ ⟨0, 0⟩] from by
    simp only [sqEdges, hpt, Int.cast_zero, Int.cast_one]]
  show some (linkLoop [Edge.line (⟨0, 0⟩ : Point ℚ) ⟨1, 0⟩]
      [Edge.line (⟨1, 0⟩ : Point ℚ) ⟨1, 1⟩, .line ⟨1, 1⟩ ⟨0, 1⟩, .line ⟨0, 1⟩ ⟨0, 0⟩] 0) ≠
    some (restartLinkFuel 3 [Edge.line (⟨0, 0⟩ : Point ℚ) ⟨1, 0⟩]
      [Edge.line (⟨1, 0⟩ : Point ℚ) ⟨1, 1⟩, .line ⟨1, 1⟩ ⟨0, 1⟩, .line ⟨0, 1⟩ ⟨0, 0⟩])
  rw [← linkLoop_eq_fuel 4 _ _ 0 (by simp)]
  decide

/-- C4: offsetting raises an error exactly when the buffered polygon is
invalid or empty; the emission loop turns that error into a skip — the
failed contour contributes no motion block, the loop never aborts, every
remaining contour is still offset and emitted, and the footer follows. -/
theorem C4_offset_error_isolated {P : Type*} (buffer : P → ℚ → P)
    (is_valid is_empty : P → Bool) (polygon : P) (distance tool : ℚ)
    (contours : List (P × ℕ)) :
    (offset_polygon buffer is_valid is_empty polygon distance = Except.error () ↔
      (is_valid (buffer polygon distance) = false ∨
       is_empty (buffer polygon distance) = true)) ∧
    emitLoop buffer is_valid is_empty tool contours =
      (contours.filterMap (fun pr =>
        (offset_polygon buffer is_valid is_empty pr.1
          (offsetDirection pr.2 * tool / 2)).toOption.map GItem.block)) ++
        [GItem.footer] := by
  constructor
  · cases hv : is_valid (buffer polygon distance) <;>
      cases he : is_empty (buffer polygon distance) <;>
      simp [offset_polygon, hv, he]
  · induction contours with
    | nil => rfl
    | cons pr rest ih =>
      obtain ⟨polygon', level⟩ := pr
      show (match offset_polygon buffer is_valid is_empty polygon'
          (offsetDirection level * tool / 2) with
        | Except.error _ => emitLoop buffer is_valid is_empty tool rest
        | Except.ok op => GItem.block op :: emitLoop buffer is_valid is_empty tool rest) = _
      cases hop : offset_polygon buffer is_valid is_empty polygon'
          (offsetDirection level * tool / 2) with
      | error u => simp [hop, ih, Except.toOption]
      | ok op => simp [hop, ih, Except.toOption]

/-- C5: with the default segment count 20, the arc segmenter emits 19
line segments, not 20 — np.linspace(…, num=20) yields 20 sample points
and the code joins consecutive points, giving num−1 segments. -/
theorem C5_arc_segment_count (arc : Edge (Point ℝ)) :
    (approximate_arc arc 20).length = 19 := by
  rw [approximate_arc]
  simp only [linspace, List.length_map, List.length_range]

/-- C6: reversing an arc swaps its start and end, keeps its center and
negates its clockwise flag; reversing twice restores every field of an
arc, and likewise restores a line's start and end. -/
theorem C6_reverse_involution {V : Type*} [Inhabited V] (s e c : V) (cw : Bool) :
    (Edge.arc s e c cw).reverse.start = e ∧
    (Edge.arc s e c cw).reverse.endp = s ∧
    (Edge.arc s e c cw).reverse.center = c ∧
    (Edge.arc s e c cw).reverse.clockwise = !cw ∧
    (Edge.arc s e c cw).reverse.reverse = Edge.arc s e c cw ∧
    (Edge.line s e).reverse.reverse = Edge.line s e :=
  ⟨rfl, rfl, rfl, rfl, Edge.reverse_reverse _, Edge.reverse_reverse _⟩

/-- C7: constructing a point from the coordinates of an
already-constructed point changes nothing (quantization is idempotent),
and two constructed points are equal exactly when their quantized
coordinates match. -/
theorem C7_quantize_idempotent {α : Type*} [LinearOrderedField α] [FloorRing α]
    (tol x y : α) :
    mkPoint tol (mkPoint tol x y).x (mkPoint tol x y).y = mkPoint tol x y ∧
    (∀ x' y', mkPoint tol x y = mkPoint tol x' y' ↔
      (quantize tol x = quantize tol x' ∧ quantize tol y = quantize tol y')) := by
  constructor
  · simp only [mkPoint, quantize_idem]
  · intro x' y'
    rw [mkPoint, mkPoint, Point.mk.injEq]

/-- C8: for every non-empty input edge set the repeated-linking driver
terminates with an empty residual pool, the produced loops are all
non-empty, and together they carry exactly the input edges (as a
multiset of geometric identities). -/
theorem C8_driver_drains {V : Type*} [DecidableEq V] [Inhabited V]
    (edges : List (Edge V)) (hne : edges ≠ []) :
    ∃ paths, driver edges = some (paths, []) ∧
      (paths.map geoms).sum = geoms edges ∧ ∀ p ∈ paths, p ≠ [] :=
  driver_drains edges hne

theorem C8_driver_drains_witness :
    ([Edge.line (0 : ℤ) 1] ≠ []) ∧
    ∃ paths, driver [Edge.line (0 : ℤ) 1] = some (paths, []) ∧
      (paths.map geoms).sum = geoms [Edge.line (0 : ℤ) 1] ∧ ∀ p ∈ paths, p ≠ [] :=
  ⟨by simp, C8_driver_drains [Edge.line (0 : ℤ) 1] (by simp)⟩

/-- C9: with a positive tolerance every constructed point lies on the
tolerance grid (both coordinates integer multiples of the tolerance),
and point addition and subtraction preserve the grid invariant. -/
theorem C9_grid_invariant {α : Type*} [LinearOrderedField α] [FloorRing α]
    {tol : α} (h : 0 < tol) :
    (∀ x y, onGrid tol (mkPoint tol x y)) ∧
    (∀ p q, onGrid tol p → onGrid tol q →
      onGrid tol (Point.add tol p q) ∧ onGrid tol (Point.sub tol p q)) :=
  ⟨fun x y => mkPoint_onGrid h x y,
   fun _ _ hp hq => ⟨(add_onGrid hp hq).2, (sub_onGrid hp hq).2⟩⟩

theorem C9_grid_invariant_witness :
    (0 : ℚ) < TOLERANCE ∧
    ((∀ x y : ℚ, onGrid TOLERANCE (mkPoint TOLERANCE x y)) ∧
     (∀ p q : Point ℚ, onGrid TOLERANCE p → onGrid TOLERANCE q →
       onGrid TOLERANCE (Point.add TOLERANCE p q) ∧
       onGrid TOLERANCE (Point.sub TOLERANCE p q))) :=
  ⟨by norm_num [TOLERANCE], C9_grid_invariant (by norm_num [TOLERANCE])⟩

/-- C10: `create_path` requires a non-empty input — on the empty list
it fails (modelled `none`) instead of returning an empty loop; on any
non-empty list it succeeds and the chain whose first and last elements
the loop body reads is never empty. -/
theorem C10_create_path_requires_nonempty {V : Type*} [DecidableEq V] [Inhabited V] :
    create_path ([] : List (Edge V)) = none ∧
    ∀ (e : Edge V) (rest : List (Edge V)),
      ∃ p u', create_path (e :: rest) = some (p, u') ∧ p ≠ [] := by
  refine ⟨rfl, ?_⟩
  intro e rest
  obtain ⟨p, u', hcp, hpne, _, _⟩ := create_path_cons_spec e rest
  exact ⟨p, u', hcp, hpne⟩

end FastPCB
